import Mathlib

/-!
Verification development for the decryption-proof and discrete-log-recovery
core of the chain-vote library.

The development shallowly embeds two source files:

* `chain-vote/src/gang/babystep.rs` — the baby-step giant-step table
  (`BabyStepsTable::generate_with_balance`) and the batch solver
  (`baby_step_giant_step`);
* `chain-vote/src/cryptography/zkps/decr_nizk.rs` — the decryption NIZK
  (`ProofDecrypt::{generate, verify, to_bytes, from_slice}`).

The elliptic-curve group and scalar field live in the `gang` module, which is
an external collaborator per the specification (an opaque prime-order group
with a generator, point negation, scalar multiplication, and a compressed
coordinate shared by `P` and `-P`, with the identity compressing to "no
coordinate").  For the solver we model the group in its exponent
representation: the additive group `ℤ`, with generator `1`; this is exact for
every element reachable in the solver because all exponents involved stay far
below the (roughly `2^252`) group order, so no wraparound of the exponent can
occur and two points share a compressed coordinate exactly when their
exponents are equal or opposite.  Machine `u64` arithmetic is modelled on `ℕ`
with explicit reduction modulo `2^64` wherever the source performs a `u64`
operation that can overflow (Rust release-mode wrapping semantics).

The source computes `(max_value as f64).sqrt().ceil() as u64` using IEEE-754
double-precision arithmetic; this pipeline is modelled exactly over `ℕ`
(round-to-nearest-even conversion, correctly rounded square root, exact
ceiling) in `sqrtCeilF64` below.
-/

set_option maxRecDepth 1000000
set_option linter.unusedVariables false

/-! ## Arithmetic groundwork -/

/-- The modulus of Rust `u64` arithmetic. -/
def U64 : ℕ := 2 ^ 64

/-- Fuel-driven integer square root: structural recursion so that the kernel
can evaluate it on concrete inputs.  `sqrtAux fuel n` is the floor square
root of `n` provided `n < 4 ^ fuel`. -/
def sqrtAux : ℕ → ℕ → ℕ
  | 0, _ => 0
  | fuel + 1, n =>
    if n < 2 then n
    else
      let s := 2 * sqrtAux fuel (n / 4)
      if (s + 1) * (s + 1) ≤ n then s + 1 else s

/-- Floor integer square root, valid for all `n < 4 ^ 128 = 2 ^ 256`. -/
def nsqrt (n : ℕ) : ℕ := sqrtAux 128 n

/-- Fuel-driven base-2 logarithm (floor), structural recursion. -/
def log2fuel : ℕ → ℕ → ℕ
  | 0, _ => 0
  | fuel + 1, n => if 2 ≤ n then log2fuel fuel (n / 2) + 1 else 0

/-- Floor base-2 logarithm, valid for all `n < 2 ^ 128`. -/
def nlog2 (n : ℕ) : ℕ := log2fuel 128 n

theorem sqrtAux_spec : ∀ (fuel n : ℕ), n < 4 ^ fuel →
    sqrtAux fuel n * sqrtAux fuel n ≤ n ∧ n < (sqrtAux fuel n + 1) * (sqrtAux fuel n + 1) := by
  intro fuel
  induction fuel with
  | zero => intro n hn; simp [pow_zero] at hn; simp [sqrtAux, hn]
  | succ fuel ih =>
    intro n hn
    by_cases h2 : n < 2
    · interval_cases n <;> simp [sqrtAux]
    · have hdiv : n / 4 < 4 ^ fuel := by
        have : n < 4 ^ fuel * 4 := by
          calc n < 4 ^ (fuel + 1) := hn
          _ = 4 ^ fuel * 4 := by ring
        omega
      obtain ⟨hle, hlt⟩ := ih (n / 4) hdiv
      simp only [sqrtAux, if_neg h2]
      set m := sqrtAux fuel (n / 4) with hm
      by_cases hstep : (2 * m + 1) * (2 * m + 1) ≤ n
      · simp only [if_pos hstep]
        constructor
        · exact hstep
        · -- n < (2m + 2)^2 follows from n / 4 < (m+1)^2
          have : n < 4 * ((m + 1) * (m + 1)) := by omega
          nlinarith
      · simp only [if_neg hstep]
        constructor
        · -- (2m)^2 = 4 m^2 ≤ 4 (n/4) ≤ n
          have h4 : 4 * (m * m) ≤ 4 * (n / 4) := by omega
          have : 4 * (n / 4) ≤ n := by omega
          nlinarith
        · omega

theorem nsqrt_spec (n : ℕ) (hn : n < 4 ^ 128) :
    nsqrt n * nsqrt n ≤ n ∧ n < (nsqrt n + 1) * (nsqrt n + 1) :=
  sqrtAux_spec 128 n hn

theorem nsqrt_unique (n s : ℕ) (hn : n < 4 ^ 128)
    (h1 : s * s ≤ n) (h2 : n < (s + 1) * (s + 1)) : nsqrt n = s := by
  obtain ⟨hle, hlt⟩ := nsqrt_spec n hn
  rcases Nat.lt_trichotomy (nsqrt n) s with h | h | h
  · exfalso
    have : (nsqrt n + 1) * (nsqrt n + 1) ≤ s * s := Nat.mul_le_mul (by omega) (by omega)
    omega
  · exact h
  · exfalso
    have : (s + 1) * (s + 1) ≤ nsqrt n * nsqrt n := Nat.mul_le_mul (by omega) (by omega)
    omega

theorem log2fuel_spec : ∀ (fuel n : ℕ), 1 ≤ n → n < 2 ^ fuel →
    2 ^ log2fuel fuel n ≤ n ∧ n < 2 ^ (log2fuel fuel n + 1) := by
  intro fuel
  induction fuel with
  | zero => intro n h1 h2; simp [pow_zero] at h2; omega
  | succ fuel ih =>
    intro n h1 h2
    by_cases hbig : 2 ≤ n
    · have hdiv1 : 1 ≤ n / 2 := by omega
      have hdiv2 : n / 2 < 2 ^ fuel := by
        have : n < 2 ^ fuel * 2 := by
          calc n < 2 ^ (fuel + 1) := h2
          _ = 2 ^ fuel * 2 := by ring
        omega
      obtain ⟨hle, hlt⟩ := ih (n / 2) hdiv1 hdiv2
      simp only [log2fuel, if_pos hbig]
      constructor
      · have : 2 ^ log2fuel fuel (n / 2) * 2 ≤ n / 2 * 2 := by omega
        calc 2 ^ (log2fuel fuel (n / 2) + 1) = 2 ^ log2fuel fuel (n / 2) * 2 := by ring
        _ ≤ n / 2 * 2 := this
        _ ≤ n := by omega
      · have : n / 2 + 1 ≤ 2 ^ (log2fuel fuel (n / 2) + 1) := hlt
        calc n ≤ n / 2 * 2 + 1 := by omega
        _ < 2 ^ (log2fuel fuel (n / 2) + 1) * 2 := by omega
        _ = 2 ^ (log2fuel fuel (n / 2) + 1 + 1) := by ring
    · have hn1 : n = 1 := by omega
      simp [log2fuel, hbig, hn1]

theorem nlog2_spec (n : ℕ) (h1 : 1 ≤ n) (h2 : n < 2 ^ 128) :
    2 ^ nlog2 n ≤ n ∧ n < 2 ^ (nlog2 n + 1) :=
  log2fuel_spec 128 n h1 h2

/-! ## Exact model of the `f64` pipeline `(n as f64).sqrt().ceil() as u64` -/

/-- Round `n` to the nearest multiple of `s` (`s ≥ 2` in use), ties going to
the even multiple.  This is the rounding step of IEEE-754 round-to-nearest-even
when the representable values around `n` are exactly the multiples of `s`. -/
def roundNearestEven (n s : ℕ) : ℕ :=
  if 2 * (n % s) < s then n / s * s
  else if s < 2 * (n % s) then (n / s + 1) * s
  else if n / s % 2 = 0 then n / s * s else (n / s + 1) * s

/-- Modelled IEEE-754 conversion `n as f64` for a `u64` value `n`: exact for
`n ≤ 2^53`; otherwise `n` is rounded to the nearest (ties-to-even) multiple of
`2^(⌊log2 n⌋ - 52)`, the spacing of doubles in the binade of `n`. -/
def f64ofU64 (n : ℕ) : ℕ :=
  if n ≤ 2 ^ 53 then n
  else roundNearestEven n (2 ^ (nlog2 n - 52))

/-- Modelled result of the source expression
`(max_value as f64).sqrt().ceil() as u64` under exact IEEE-754 semantics.

For `r1` the (exactly converted) input, the correctly rounded square root is
the grid point `m · 2^(k-52)` (with `2^k ≤ √r1 < 2^(k+1)`, so the binade grid
spacing is `2^(k-52)`) nearest to `√r1`; scaling by `2^(52-k)` turns this into
rounding `√(r1 · 4^(52-k))` to the nearest integer `m`, which is `s = ⌊√N⌋`
when `N ≤ s² + s` and `s + 1` otherwise (a tie `√N = s + 1/2` is impossible
for integer `N`).  The IEEE `ceil` and the final narrowing cast are exact on
the values that arise from a `u64` input. -/
def f64SqrtRound (bigN : ℕ) : ℕ :=
  if bigN ≤ nsqrt bigN * nsqrt bigN + nsqrt bigN then nsqrt bigN else nsqrt bigN + 1

def f64CeilDiv (m sh : ℕ) : ℕ := (m + 2 ^ sh - 1) / 2 ^ sh

def sqrtCeilF64 (n : ℕ) : ℕ :=
  if f64ofU64 n = 0 then 0
  else
    f64CeilDiv (f64SqrtRound (f64ofU64 n * 4 ^ (52 - nlog2 (f64ofU64 n) / 2)))
      (52 - nlog2 (f64ofU64 n) / 2)

/-- Reference definition following the specification text: the exact integer
`ceil(sqrt(max_value))`. -/
def ceilSqrtNat (n : ℕ) : ℕ :=
  if nsqrt n * nsqrt n = n then nsqrt n else nsqrt n + 1

/-! ## Group model (exponent representation) -/

/-- Modelled from the spec: the elliptic-curve group (an external collaborator:
an opaque prime-order cyclic group with a distinguished generator) in its
exponent representation.  `gGen R` is the generator; for the solver we take
`R = ℤ`, where the group element `generator * x` is represented by the
integer `x` and the group operation is addition.  This is exact on the range
of exponents the embedded code can reach, all far below the group order. -/
def gGen (R : Type) [One R] : R := 1

/-- Modelled from the spec: compressed-coordinate extraction.  A point and its
negation share the compressed coordinate (the sign bit is discarded by the
source before the coordinate is used as a table key), and the identity element
has no coordinate (`None` key in the source table). -/
def compress (p : ℤ) : Option ℕ := if p = 0 then none else some p.natAbs

/-! ## `BabyStepsTable` (chain-vote/src/gang/babystep.rs) -/

/-- Functional model of `HashMap::insert` for the baby-steps table. -/
def hmInsert (m : Option ℕ → Option ℕ) (key : Option ℕ) (v : ℕ) :
    Option ℕ → Option ℕ :=
  fun k => if k = key then some v else m k

/-- `const DEFAULT_BALANCE: u64 = 2`. -/
def DEFAULT_BALANCE : ℕ := 2

/-- `BabyStepsTable`: precomputed baby steps for the baby-step giant-step
algorithm.  The `table` field models the
`HashMap<Option<[u8; Coordinate::BYTES_LEN]>, u64>` as a lookup function. -/
structure BabyStepsTable where
  table : Option ℕ → Option ℕ
  baby_step_size : ℕ
  giant_step : ℤ

/-- `BabyStepsTable::generate_with_balance`.  The `f64` square-root pipeline
is `sqrtCeilF64`; the `u64` product `sqrt_step_size * balance` is reduced
mod `2^64`; the loop `for i in 0..=baby_step_size / 2` inserts the compressed
coordinate of the running point `e` (starting at the identity and advancing
by the generator) with value `i`. -/
def BabyStepsTable.generate_with_balance (max_value balance : ℕ) : BabyStepsTable :=
  let sqrt_step_size := sqrtCeilF64 max_value
  let baby_step_size := sqrt_step_size * balance % U64
  let st := (List.range (baby_step_size / 2 + 1)).foldl
    (fun st i => (hmInsert st.1 (compress st.2) i, st.2 + gGen ℤ))
    ((fun _ => none), (0 : ℤ))
  { table := st.1
    baby_step_size := baby_step_size
    giant_step := gGen ℤ * (-(baby_step_size : ℤ)) }

/-- `BabyStepsTable::generate`. -/
def BabyStepsTable.generate (max_value : ℕ) : BabyStepsTable :=
  BabyStepsTable.generate_with_balance max_value DEFAULT_BALANCE

/-- The insertion fold of `generate_with_balance`, abstracted for reasoning
about the table construction loop. -/
def tableFoldStep (st : (Option ℕ → Option ℕ) × ℤ) (i : ℕ) :
    (Option ℕ → Option ℕ) × ℤ :=
  (hmInsert st.1 (compress st.2) i, st.2 + gGen ℤ)

/-- Abstract behaviour of a generated table for baby-step size `bss`: the
identity key holds `0` and the key `j` holds `j` exactly for
`1 ≤ j ≤ bss / 2`. -/
def TableSpec (tbl : Option ℕ → Option ℕ) (bss : ℕ) : Prop :=
  tbl none = some 0 ∧
  ∀ j : ℕ, tbl (some j) = if 1 ≤ j ∧ j ≤ bss / 2 then some j else none

/-! ## The solver `baby_step_giant_step` -/

/-- Result of solving one target: the recovered discrete log, or the
`MaxLogExceeded` failure. -/
inductive SolveResult where
  | ok (r : ℕ)
  | maxLogExceeded
deriving DecidableEq

/-- Result of the whole batch, `Result<Vec<u64>, MaxLogExceeded>` in the
source: either every target's recovered log, or a single global failure. -/
inductive BatchResult where
  | ok (rs : List ℕ)
  | maxLogExceeded
deriving DecidableEq

/-- One iteration of the solver's `loop` either exits with a result or
continues with an updated state. -/
inductive StepOut where
  | done (r : SolveResult)
  | next (p : ℤ) (a : ℕ)
deriving DecidableEq

/-- The body of the `loop` in `baby_step_giant_step`, acting on the state
`(p, a)` (current point and giant-step counter).  All `u64` operations
(`a * baby_step_size`, `+ x`, `- x`, `a += 1`) are wrapping, hence the
explicit `% U64`; the wrapping subtraction `y - x` is `(y + (U64 - x)) % U64`
for the `u64` value `x < U64`. -/
def bsgsStep (tbl : Option ℕ → Option ℕ) (bss maxLog : ℕ) (giant : ℤ)
    (p : ℤ) (a : ℕ) : StepOut :=
  match tbl (compress p) with
  | some x =>
    StepOut.done (SolveResult.ok
      (if (x : ℤ) * gGen ℤ = p
        then (a * bss % U64 + x) % U64
        else (a * bss % U64 + (U64 - x)) % U64))
  | none =>
    if maxLog < a * bss % U64 then StepOut.done SolveResult.maxLogExceeded
    else StepOut.next (p + giant) ((a + 1) % U64)

/-- Fuel-indexed unfolding of the solver's `loop`: `none` means the loop has
not exited within `fuel` iterations. -/
def bsgsRun (tbl : Option ℕ → Option ℕ) (bss maxLog : ℕ) (giant : ℤ) :
    ℕ → ℤ × ℕ → Option SolveResult
  | 0, _ => none
  | fuel + 1, s =>
    match bsgsStep tbl bss maxLog giant s.1 s.2 with
    | StepOut.done r => some r
    | StepOut.next p a => bsgsRun tbl bss maxLog giant fuel (p, a)

/-- The state reached after exactly `j` non-exiting iterations of the loop
(`none` if the loop exits strictly before `j` iterations). -/
def stepsTo (tbl : Option ℕ → Option ℕ) (bss maxLog : ℕ) (giant : ℤ) :
    ℕ → ℤ × ℕ → Option (ℤ × ℕ)
  | 0, s => some s
  | j + 1, s =>
    match bsgsStep tbl bss maxLog giant s.1 s.2 with
    | StepOut.done _ => none
    | StepOut.next p a => stepsTo tbl bss maxLog giant j (p, a)

/-- Solving a single target point: the per-element closure of the source's
parallel map, started at state `(p, 0)`. -/
def solveOne (t : BabyStepsTable) (maxLog : ℕ) (p : ℤ) (fuel : ℕ) :
    Option SolveResult :=
  bsgsRun t.table t.baby_step_size maxLog t.giant_step fuel (p, 0)

/-- `collect::<Result<Vec<u64>, MaxLogExceeded>>()`: any per-element failure
makes the whole batch fail. -/
def collectResults : List SolveResult → BatchResult
  | [] => BatchResult.ok []
  | SolveResult.ok r :: rest =>
    match collectResults rest with
    | BatchResult.ok rs => BatchResult.ok (r :: rs)
    | BatchResult.maxLogExceeded => BatchResult.maxLogExceeded
  | SolveResult.maxLogExceeded :: _ => BatchResult.maxLogExceeded

/-- `baby_step_giant_step`: solve each point of the batch independently
(the source uses a rayon parallel iterator whose `collect` restores input
order, so the sequential map is its exact functional semantics), then collect
into a single `Result`.  `none` if some element's loop has not exited within
`fuel` iterations. -/
def baby_step_giant_step (points : List ℤ) (max_log : ℕ) (t : BabyStepsTable)
    (fuel : ℕ) : Option BatchResult :=
  match points.mapM (fun p => solveOne t max_log p fuel) with
  | none => none
  | some rs => some (collectResults rs)

/-! ## `ProofDecrypt` (chain-vote/src/cryptography/zkps/decr_nizk.rs)

The group is again taken in exponent representation, now over an arbitrary
commutative ring `R` standing for the scalar field: the group element
`g^x` is represented by `x : R`, so group addition is `+`, and the action of
a scalar `s` on a group element is `*`.  The Fiat-Shamir challenge
derivation (`ChallengeContextProofDecrypt`, an external collaborator) is an
arbitrary deterministic function `H` of the tuple `(pk, ciphertext, d, a1,
a2)`, exactly the inputs the source feeds to it; `generate` and `verify` are
parameterized by the same `H`.  The random scalar `w` drawn from the `rng`
is an explicit argument of `generate`. -/

/-- ElGamal ciphertext `(e1, e2)`, in exponent representation. -/
structure Ciphertext (R : Type) where
  e1 : R
  e2 : R

/-- Proof of correct decryption: the triple `(a1, a2, z)`. -/
structure ProofDecrypt (R : Type) where
  a1 : R
  a2 : R
  z : R
deriving DecidableEq

/-- `ProofDecrypt::generate`, with the challenge function `H` and the random
scalar `w` (the value sampled from the `rng`) as explicit parameters. -/
def ProofDecrypt.generate {R : Type} [CommRing R]
    (H : R → Ciphertext R → R → R → R → R)
    (c : Ciphertext R) (pk sk w : R) : ProofDecrypt R :=
  let a1 := gGen R * w
  let a2 := c.e1 * w
  let d := c.e1 * sk
  let e := H pk c d a1 a2
  let z := sk * e + w
  { a1 := a1, a2 := a2, z := z }

/-- `ProofDecrypt::verify`. -/
def ProofDecrypt.verify {R : Type} [CommRing R] [DecidableEq R]
    (H : R → Ciphertext R → R → R → R → R)
    (pf : ProofDecrypt R) (c : Ciphertext R) (m pk : R) : Bool :=
  let d := c.e2 - m
  let e := H pk c d pf.a1 pf.a2
  let gz := gGen R * pf.z
  let he := pk * e
  let he_a1 := he + pf.a1
  let c1z := c.e1 * pf.z
  let de := d * e
  let de_a2 := de + pf.a2
  decide (gz = he_a1) && decide (c1z = de_a2)

/-- A concrete challenge function usable in completeness witnesses: any
deterministic function of the tuple `(pk, c, d, a1, a2)` works. -/
def Hdemo : ℤ → Ciphertext ℤ → ℤ → ℤ → ℤ → ℤ :=
  fun pk c d a1 a2 => pk + c.e1 + c.e2 + d + a1 + a2

/-! ## Serialization of `ProofDecrypt`

For the byte encodings the group and scalar are instantiated at the concrete
scalar field `ZMod qOrder` (`qOrder` is the order of the ristretto255 group
the `gang` module builds on).  The encodings of group elements and scalars
are external collaborators; they are modelled from the spec as canonical
fixed-width (32-byte) little-endian encodings whose decoder rejects
non-canonical buffers. -/

/-- The prime order of the scalar field / group of the curve collaborator. -/
def qOrder : ℕ := 2 ^ 252 + 27742317777372353535851937790883648493

instance : NeZero qOrder := ⟨by norm_num [qOrder]⟩

/-- The scalar field (and, in exponent representation, the group). -/
abbrev Zq := ZMod qOrder

/-- `GroupElement::BYTES_LEN`. -/
def geBYTES_LEN : ℕ := 32

/-- `Scalar::BYTES_LEN` (the source notes: Scalar is 32 bytes). -/
def scBYTES_LEN : ℕ := 32

/-- Little-endian byte encoding of a natural number, fixed width `w`. -/
def natToBytesLE : ℕ → ℕ → List ℕ
  | 0, _ => []
  | w + 1, n => n % 256 :: natToBytesLE w (n / 256)

/-- Little-endian byte decoding. -/
def bytesToNatLE : List ℕ → ℕ
  | [] => 0
  | b :: rest => b + 256 * bytesToNatLE rest

/-- Modelled from the spec: `GroupElement::to_bytes`, the canonical
fixed-width (32-byte) encoding of a group element. -/
def geToBytes (x : Zq) : List ℕ := natToBytesLE geBYTES_LEN x.val

/-- Modelled from the spec: `GroupElement::from_bytes`; decoding fails on a
buffer of the wrong length or an encoding that is not a valid (canonical)
group element. -/
def geFromBytes (l : List ℕ) : Option Zq :=
  if l.length = geBYTES_LEN ∧ bytesToNatLE l < qOrder
  then some ((bytesToNatLE l : ℕ) : Zq) else none

/-- Modelled from the spec: `Scalar::to_bytes`. -/
def scToBytes (x : Zq) : List ℕ := natToBytesLE scBYTES_LEN x.val

/-- Modelled from the spec: `Scalar::from_bytes`; decoding fails on a buffer
of the wrong length or a non-canonical scalar encoding. -/
def scFromBytes (l : List ℕ) : Option Zq :=
  if l.length = scBYTES_LEN ∧ bytesToNatLE l < qOrder
  then some ((bytesToNatLE l : ℕ) : Zq) else none

/-- `ProofDecrypt::PROOF_SIZE = 2 * GroupElement::BYTES_LEN + Scalar::BYTES_LEN`. -/
def ProofDecrypt.PROOF_SIZE : ℕ := 2 * geBYTES_LEN + scBYTES_LEN

/-- `ProofDecrypt::to_bytes` (via `to_slice_mut`): the concatenation
`a1 || a2 || z`. -/
def ProofDecrypt.to_bytes (pf : ProofDecrypt Zq) : List ℕ :=
  geToBytes pf.a1 ++ geToBytes pf.a2 ++ scToBytes pf.z

/-- `ProofDecrypt::from_slice`: reject a buffer whose length is not
`PROOF_SIZE`, then decode the three components, failing if any fails. -/
def ProofDecrypt.from_slice (l : List ℕ) : Option (ProofDecrypt Zq) :=
  if l.length ≠ ProofDecrypt.PROOF_SIZE then none
  else
    match geFromBytes (l.take geBYTES_LEN),
        geFromBytes ((l.drop geBYTES_LEN).take geBYTES_LEN),
        scFromBytes (l.drop (2 * geBYTES_LEN)) with
    | some a1, some a2, some z => some { a1 := a1, a2 := a2, z := z }
    | _, _, _ => none

/-! ## Basic facts about the modulus and wrapping arithmetic -/

theorem U64_pos : 0 < U64 := by norm_num [U64]

/-- Wrapping subtraction undoes wrapping addition: for `i ≤ U64`,
`((x + i) % U64 + (U64 - i)) % U64 = x % U64`. -/
theorem wrap_sub_add (x i : ℕ) (hi : i ≤ U64) :
    ((x + i) % U64 + (U64 - i)) % U64 = x % U64 := by
  rw [Nat.mod_add_mod]
  have h : x + i + (U64 - i) = x + U64 := by omega
  rw [h, Nat.add_mod_right]

/-! ## Characterization of the generated table -/

theorem generate_with_balance_eq (max_value balance : ℕ) :
    BabyStepsTable.generate_with_balance max_value balance =
      { table := ((List.range (sqrtCeilF64 max_value * balance % U64 / 2 + 1)).foldl
          tableFoldStep ((fun _ => none), (0 : ℤ))).1
        baby_step_size := sqrtCeilF64 max_value * balance % U64
        giant_step := gGen ℤ * (-((sqrtCeilF64 max_value * balance % U64 : ℕ) : ℤ)) } := rfl

theorem compress_zero : compress 0 = none := rfl

theorem compress_natCast (n : ℕ) (hn : 0 < n) : compress ((n : ℕ) : ℤ) = some n := by
  simp only [compress, Int.natAbs_ofNat]
  rw [if_neg (by exact_mod_cast (by omega : ¬n = 0))]

theorem compress_neg_natCast (n : ℕ) (hn : 0 < n) : compress (-((n : ℕ) : ℤ)) = some n := by
  simp only [compress, Int.natAbs_neg, Int.natAbs_ofNat]
  rw [if_neg (by omega)]

theorem tableFold_spec : ∀ n : ℕ,
    ((List.range n).foldl tableFoldStep ((fun _ => none), (0 : ℤ))).2 = (n : ℤ) ∧
    (((List.range n).foldl tableFoldStep ((fun _ => none), (0 : ℤ))).1 none
      = if 1 ≤ n then some 0 else none) ∧
    (∀ j : ℕ, ((List.range n).foldl tableFoldStep ((fun _ => none), (0 : ℤ))).1 (some j)
      = if 1 ≤ j ∧ j < n then some j else none) := by
  intro n
  induction n with
  | zero =>
    refine ⟨rfl, rfl, fun j => ?_⟩
    rw [if_neg (by omega)]
    rfl
  | succ n ih =>
    obtain ⟨ih2, ihn, ihs⟩ := ih
    rw [List.range_succ, List.foldl_append]
    set prev := (List.range n).foldl tableFoldStep ((fun _ => none), (0 : ℤ)) with hprev
    have hstep : List.foldl tableFoldStep prev [n] =
        (hmInsert prev.1 (compress prev.2) n, prev.2 + gGen ℤ) := rfl
    rw [hstep]
    refine ⟨?_, ?_, ?_⟩
    · simp only [ih2, gGen]
      push_cast
      ring
    · simp only [hmInsert, ih2]
      rcases Nat.eq_zero_or_pos n with hn | hn
      · subst hn
        simp [compress]
      · rw [compress_natCast n hn]
        simp only [reduceCtorEq, if_false, ihn]
        rw [if_pos (by omega : 1 ≤ n), if_pos (by omega : 1 ≤ n + 1)]
    · intro j
      simp only [hmInsert, ih2]
      rcases Nat.eq_zero_or_pos n with hn | hn
      · subst hn
        rw [show ((0 : ℕ) : ℤ) = (0 : ℤ) by norm_num, compress_zero]
        simp only [reduceCtorEq, if_false, ihs]
        rw [if_neg (by omega)]
        rw [if_neg (by omega)]
      · rw [compress_natCast n hn]
        by_cases hj : j = n
        · subst hj
          rw [if_pos rfl, if_pos ⟨hn, by omega⟩]
        · rw [if_neg (by simpa using hj), ihs]
          by_cases h1 : 1 ≤ j ∧ j < n
          · rw [if_pos h1, if_pos ⟨h1.1, by omega⟩]
          · rw [if_neg h1, if_neg (by omega)]

theorem generate_bss (max_value balance : ℕ) :
    (BabyStepsTable.generate_with_balance max_value balance).baby_step_size =
      sqrtCeilF64 max_value * balance % U64 := rfl

theorem generate_bss_lt (max_value balance : ℕ) :
    (BabyStepsTable.generate_with_balance max_value balance).baby_step_size < U64 :=
  Nat.mod_lt _ U64_pos

theorem generate_giant (max_value balance : ℕ) :
    (BabyStepsTable.generate_with_balance max_value balance).giant_step =
      -(((BabyStepsTable.generate_with_balance max_value balance).baby_step_size : ℕ) : ℤ) :=
  one_mul _

theorem generate_table_eq (max_value balance : ℕ) :
    (BabyStepsTable.generate_with_balance max_value balance).table =
      ((List.range (sqrtCeilF64 max_value * balance % U64 / 2 + 1)).foldl
        tableFoldStep ((fun _ => none), (0 : ℤ))).1 := rfl

theorem generate_table_none (max_value balance : ℕ) :
    (BabyStepsTable.generate_with_balance max_value balance).table none = some 0 := by
  rw [generate_table_eq]
  obtain ⟨-, h, -⟩ := tableFold_spec
    (sqrtCeilF64 max_value * balance % U64 / 2 + 1)
  rw [h, if_pos (by omega)]

theorem generate_table_some (max_value balance : ℕ) (j : ℕ) :
    (BabyStepsTable.generate_with_balance max_value balance).table (some j) =
      if 1 ≤ j ∧ j ≤ (BabyStepsTable.generate_with_balance max_value balance).baby_step_size / 2
      then some j else none := by
  rw [generate_table_eq, generate_bss]
  obtain ⟨-, -, h⟩ := tableFold_spec
    (sqrtCeilF64 max_value * balance % U64 / 2 + 1)
  rw [h j]
  by_cases hc : 1 ≤ j ∧ j ≤ sqrtCeilF64 max_value * balance % U64 / 2
  · rw [if_pos (by omega), if_pos hc]
  · rw [if_neg (by omega), if_neg hc]

theorem generate_tableSpec (max_value balance : ℕ) :
    TableSpec (BabyStepsTable.generate_with_balance max_value balance).table
      (BabyStepsTable.generate_with_balance max_value balance).baby_step_size :=
  ⟨generate_table_none max_value balance, generate_table_some max_value balance⟩

/-! ## Step lemmas for the solver loop -/

theorem step_found_zero {tbl : Option ℕ → Option ℕ} {bss : ℕ} (ht : TableSpec tbl bss)
    (maxLog : ℕ) (giant : ℤ) (a : ℕ) :
    bsgsStep tbl bss maxLog giant 0 a = StepOut.done (SolveResult.ok (a * bss % U64)) := by
  have hc : tbl (compress 0) = some 0 := by rw [compress_zero, ht.1]
  simp only [bsgsStep, hc, gGen, mul_one, Nat.cast_zero]
  rw [if_true, Nat.add_zero, Nat.mod_mod_of_dvd _ dvd_rfl]

theorem step_found_pos {tbl : Option ℕ → Option ℕ} {bss : ℕ} (ht : TableSpec tbl bss)
    (maxLog : ℕ) (giant : ℤ) (d a : ℕ) (h1 : 1 ≤ d) (h2 : d ≤ bss / 2) :
    bsgsStep tbl bss maxLog giant ((d : ℕ) : ℤ) a =
      StepOut.done (SolveResult.ok ((a * bss % U64 + d) % U64)) := by
  have hc : tbl (compress ((d : ℕ) : ℤ)) = some d := by
    rw [compress_natCast d h1, ht.2, if_pos ⟨h1, h2⟩]
  simp only [bsgsStep, hc, gGen, mul_one]
  rw [if_true]

theorem step_found_neg {tbl : Option ℕ → Option ℕ} {bss : ℕ} (ht : TableSpec tbl bss)
    (maxLog : ℕ) (giant : ℤ) (d a : ℕ) (h1 : 1 ≤ d) (h2 : d ≤ bss / 2) :
    bsgsStep tbl bss maxLog giant (-((d : ℕ) : ℤ)) a =
      StepOut.done (SolveResult.ok ((a * bss % U64 + (U64 - d)) % U64)) := by
  have hc : tbl (compress (-((d : ℕ) : ℤ))) = some d := by
    rw [compress_neg_natCast d h1, ht.2, if_pos ⟨h1, h2⟩]
  simp only [bsgsStep, hc, gGen, mul_one]
  rw [if_neg (by omega : ¬((d : ℕ) : ℤ) = -((d : ℕ) : ℤ))]

theorem step_miss_lookup {tbl : Option ℕ → Option ℕ} {bss : ℕ} (ht : TableSpec tbl bss)
    (p : ℤ) (hp : p ≠ 0) (hbig : bss / 2 < p.natAbs) : tbl (compress p) = none := by
  have : compress p = some p.natAbs := by simp only [compress, if_neg hp]
  rw [this, ht.2, if_neg (by omega)]

theorem step_miss_adv {tbl : Option ℕ → Option ℕ} {bss : ℕ} (ht : TableSpec tbl bss)
    (maxLog : ℕ) (giant : ℤ) (p : ℤ) (a : ℕ)
    (hp : p ≠ 0) (hbig : bss / 2 < p.natAbs) (herr : a * bss % U64 ≤ maxLog) :
    bsgsStep tbl bss maxLog giant p a = StepOut.next (p + giant) ((a + 1) % U64) := by
  simp only [bsgsStep, step_miss_lookup ht p hp hbig]
  rw [if_neg (by omega)]

theorem step_miss_err {tbl : Option ℕ → Option ℕ} {bss : ℕ} (ht : TableSpec tbl bss)
    (maxLog : ℕ) (giant : ℤ) (p : ℤ) (a : ℕ)
    (hp : p ≠ 0) (hbig : bss / 2 < p.natAbs) (herr : maxLog < a * bss % U64) :
    bsgsStep tbl bss maxLog giant p a = StepOut.done SolveResult.maxLogExceeded := by
  simp only [bsgsStep, step_miss_lookup ht p hp hbig]
  rw [if_pos herr]

/-! ## Behaviour of the loop on targets generator * x -/

/-- Success of the solver loop: starting from state `(d, a)` with true
discrete log `x = a * bss + d ≤ maxLog`, the loop exits within
`d / bss + 2` iterations with exactly the value `x`. -/
theorem run_finds {tbl : Option ℕ → Option ℕ} {bss : ℕ} (ht : TableSpec tbl bss)
    (maxLog : ℕ) (hB : 1 ≤ bss) (hBU : bss < U64) (hml : maxLog < U64) :
    ∀ d x a fuel, a * bss + d = x → x ≤ maxLog → d / bss + 2 ≤ fuel →
    bsgsRun tbl bss maxLog (-((bss : ℕ) : ℤ)) fuel (((d : ℕ) : ℤ), a) =
      some (SolveResult.ok x) := by
  intro d
  induction d using Nat.strong_induction_on with
  | _ d ih =>
    intro x a fuel hsum hx hfuel
    have hf2 : 2 ≤ fuel := le_trans (Nat.le_add_left 2 (d / bss)) hfuel
    obtain ⟨fuel, rfl⟩ : ∃ f, fuel = f + 1 := ⟨fuel - 1, by omega⟩
    have hax : a * bss ≤ x := by omega
    have haxU : a * bss < U64 := by omega
    have hmod : a * bss % U64 = a * bss := Nat.mod_eq_of_lt haxU
    rcases Nat.lt_or_ge (bss / 2) d with hbig | hsmall
    · -- the lookup misses: advance by a giant step
      have hd1 : 1 ≤ d := by omega
      have hstep := step_miss_adv ht maxLog (-((bss : ℕ) : ℤ)) ((d : ℕ) : ℤ) a
        (by exact_mod_cast (by omega : ¬d = 0))
        (by rw [Int.natAbs_ofNat]; omega)
        (by omega)
      have ha1 : (a + 1) % U64 = a + 1 := by
        have : a ≤ a * bss := Nat.le_mul_of_pos_right a hB
        exact Nat.mod_eq_of_lt (by omega)
      simp only [bsgsRun, hstep, ha1]
      rcases Nat.lt_or_ge d bss with hdb | hdb
      · -- negative current point next: found via the shared coordinate
        have h1 : 1 ≤ bss - d := by omega
        have h2 : bss - d ≤ bss / 2 := by omega
        have hcur : ((d : ℕ) : ℤ) + -((bss : ℕ) : ℤ) = -(((bss - d : ℕ) : ℕ) : ℤ) := by
          push_cast [Nat.cast_sub (by omega : d ≤ bss)]
          ring
        have hdiv0 : d / bss = 0 := Nat.div_eq_of_lt hdb
        obtain ⟨f2, rfl⟩ : ∃ f2, fuel = f2 + 1 := ⟨fuel - 1, by omega⟩
        rw [hcur]
        simp only [bsgsRun, step_found_neg ht maxLog (-((bss : ℕ) : ℤ)) (bss - d) (a + 1) h1 h2]
        have hval : ((a + 1) * bss % U64 + (U64 - (bss - d))) % U64 = x := by
          have he : (a + 1) * bss = x + (bss - d) := by
            have : (a + 1) * bss = a * bss + bss := by ring
            omega
          rw [he, wrap_sub_add x (bss - d) (by omega)]
          exact Nat.mod_eq_of_lt (by omega)
        rw [hval]
      · -- still nonnegative: recurse
        have hcur : ((d : ℕ) : ℤ) + -((bss : ℕ) : ℤ) = (((d - bss : ℕ) : ℕ) : ℤ) := by
          push_cast [Nat.cast_sub hdb]
          ring
        rw [hcur]
        apply ih (d - bss) (by omega) x (a + 1) fuel
        · have : (a + 1) * bss = a * bss + bss := by ring
          omega
        · exact hx
        · have hdd : d / bss = (d - bss) / bss + 1 := by
            conv_lhs => rw [show d = (d - bss) + bss by omega]
            exact Nat.add_div_right _ (by omega)
          omega
    · -- the lookup hits: found directly
      rcases Nat.eq_zero_or_pos d with hd0 | hd1
      · subst hd0
        simp only [Nat.cast_zero, bsgsRun, step_found_zero ht maxLog (-((bss : ℕ) : ℤ)) a]
        rw [hmod]
        have : a * bss = x := by omega
        rw [this]
      · simp only [bsgsRun, step_found_pos ht maxLog (-((bss : ℕ) : ℤ)) d a hd1 hsmall]
        have hval : (a * bss % U64 + d) % U64 = x := by
          rw [hmod, hsum]
          exact Nat.mod_eq_of_lt (by omega)
        rw [hval]

/-- Termination of the solver loop on a target with true discrete log
`x = a * bss + d < 2^64`: within `d / bss + 2` iterations it exits, either
with exactly the value `x` or with the `MaxLogExceeded` failure (never with a
wrong value). -/
theorem run_term {tbl : Option ℕ → Option ℕ} {bss : ℕ} (ht : TableSpec tbl bss)
    (maxLog : ℕ) (hB : 1 ≤ bss) (hBU : bss < U64) :
    ∀ d x a fuel, a * bss + d = x → x < U64 → d / bss + 2 ≤ fuel →
    bsgsRun tbl bss maxLog (-((bss : ℕ) : ℤ)) fuel (((d : ℕ) : ℤ), a) =
        some (SolveResult.ok x) ∨
      bsgsRun tbl bss maxLog (-((bss : ℕ) : ℤ)) fuel (((d : ℕ) : ℤ), a) =
        some SolveResult.maxLogExceeded := by
  intro d
  induction d using Nat.strong_induction_on with
  | _ d ih =>
    intro x a fuel hsum hx hfuel
    have hf2 : 2 ≤ fuel := le_trans (Nat.le_add_left 2 (d / bss)) hfuel
    obtain ⟨fuel, rfl⟩ : ∃ f, fuel = f + 1 := ⟨fuel - 1, by omega⟩
    have hax : a * bss ≤ x := by omega
    have haxU : a * bss < U64 := by omega
    have hmod : a * bss % U64 = a * bss := Nat.mod_eq_of_lt haxU
    rcases Nat.lt_or_ge (bss / 2) d with hbig | hsmall
    · -- the lookup misses: either the bound check fires or we advance
      have hd1 : 1 ≤ d := by omega
      rcases Nat.lt_or_ge maxLog (a * bss % U64) with herr | hok
      · right
        have hstep := step_miss_err ht maxLog (-((bss : ℕ) : ℤ)) ((d : ℕ) : ℤ) a
          (by exact_mod_cast (by omega : ¬d = 0))
          (by rw [Int.natAbs_ofNat]; omega) herr
        simp only [bsgsRun, hstep]
      · have hstep := step_miss_adv ht maxLog (-((bss : ℕ) : ℤ)) ((d : ℕ) : ℤ) a
          (by exact_mod_cast (by omega : ¬d = 0))
          (by rw [Int.natAbs_ofNat]; omega) hok
        have ha1 : (a + 1) % U64 = a + 1 := by
          have : a ≤ a * bss := Nat.le_mul_of_pos_right a hB
          exact Nat.mod_eq_of_lt (by omega)
        simp only [bsgsRun, hstep, ha1]
        rcases Nat.lt_or_ge d bss with hdb | hdb
        · left
          have h1 : 1 ≤ bss - d := by omega
          have h2 : bss - d ≤ bss / 2 := by omega
          have hcur : ((d : ℕ) : ℤ) + -((bss : ℕ) : ℤ) = -(((bss - d : ℕ) : ℕ) : ℤ) := by
            push_cast [Nat.cast_sub (by omega : d ≤ bss)]
            ring
          have hdiv0 : d / bss = 0 := Nat.div_eq_of_lt hdb
          obtain ⟨f2, rfl⟩ : ∃ f2, fuel = f2 + 1 := ⟨fuel - 1, by omega⟩
          rw [hcur]
          simp only [bsgsRun,
            step_found_neg ht maxLog (-((bss : ℕ) : ℤ)) (bss - d) (a + 1) h1 h2]
          have hval : ((a + 1) * bss % U64 + (U64 - (bss - d))) % U64 = x := by
            have he : (a + 1) * bss = x + (bss - d) := by
              have : (a + 1) * bss = a * bss + bss := by ring
              omega
            rw [he, wrap_sub_add x (bss - d) (by omega)]
            exact Nat.mod_eq_of_lt hx
          rw [hval]
        · have hcur : ((d : ℕ) : ℤ) + -((bss : ℕ) : ℤ) = (((d - bss : ℕ) : ℕ) : ℤ) := by
            push_cast [Nat.cast_sub hdb]
            ring
          rw [hcur]
          apply ih (d - bss) (by omega) x (a + 1) fuel
          · have : (a + 1) * bss = a * bss + bss := by ring
            omega
          · exact hx
          · have hdd : d / bss = (d - bss) / bss + 1 := by
              conv_lhs => rw [show d = (d - bss) + bss by omega]
              exact Nat.add_div_right _ (by omega)
            omega
    · -- the lookup hits: the exact value is returned
      left
      rcases Nat.eq_zero_or_pos d with hd0 | hd1
      · subst hd0
        simp only [Nat.cast_zero, bsgsRun, step_found_zero ht maxLog (-((bss : ℕ) : ℤ)) a]
        rw [hmod]
        have : a * bss = x := by omega
        rw [this]
      · simp only [bsgsRun, step_found_pos ht maxLog (-((bss : ℕ) : ℤ)) d a hd1 hsmall]
        have hval : (a * bss % U64 + d) % U64 = x := by
          rw [hmod, hsum]
          exact Nat.mod_eq_of_lt hx
        rw [hval]

/-- Any continuing step has the fixed successor form: the point advances by
the giant step and the counter by a wrapping increment. -/
theorem step_next_form {tbl : Option ℕ → Option ℕ} {bss maxLog : ℕ} {giant p1 : ℤ}
    {p : ℤ} {a a1 : ℕ} (h : bsgsStep tbl bss maxLog giant p a = StepOut.next p1 a1) :
    p1 = p + giant ∧ a1 = (a + 1) % U64 := by
  unfold bsgsStep at h
  cases hc : tbl (compress p) with
  | some x => rw [hc] at h; simp at h
  | none =>
    rw [hc] at h
    by_cases he : maxLog < a * bss % U64
    · rw [if_pos he] at h; simp at h
    · rw [if_neg he] at h
      exact ⟨(StepOut.next.injEq _ _ _ _ ▸ h).1.symm, (StepOut.next.injEq _ _ _ _ ▸ h).2.symm⟩

/-- State invariant of the loop: after `j` non-exiting iterations from
`(c0, a0)` with `a0 < 2^64`, the state is `(c0 + j * giant, (a0 + j) % 2^64)`. -/
theorem stepsTo_inv {tbl : Option ℕ → Option ℕ} {bss maxLog : ℕ} {giant : ℤ} :
    ∀ (j : ℕ) (c0 : ℤ) (a0 : ℕ) (p : ℤ) (a : ℕ), a0 < U64 →
    stepsTo tbl bss maxLog giant j (c0, a0) = some (p, a) →
    p = c0 + j * giant ∧ a = (a0 + j) % U64 := by
  intro j
  induction j with
  | zero =>
    intro c0 a0 p a ha0 h
    simp only [stepsTo] at h
    obtain ⟨rfl, rfl⟩ := Prod.mk.injEq .. ▸ Option.some.injEq _ _ ▸ h
    constructor
    · simp
    · rw [Nat.add_zero, Nat.mod_eq_of_lt ha0]
  | succ j ih =>
    intro c0 a0 p a ha0 h
    simp only [stepsTo] at h
    cases hs : bsgsStep tbl bss maxLog giant c0 a0 with
    | done r => rw [hs] at h; simp at h
    | next p1 a1 =>
      rw [hs] at h
      obtain ⟨hp1, ha1⟩ := step_next_form hs
      subst hp1
      subst ha1
      obtain ⟨hp, ha⟩ := ih (c0 + giant) ((a0 + 1) % U64) p a (Nat.mod_lt _ U64_pos) h
      constructor
      · rw [hp]; push_cast; ring
      · rw [ha, Nat.mod_add_mod]
        congr 1
        omega

/-- Trajectory lemma: as long as the current exponent stays strictly above
`bss / 2` and the bound check never fires, the loop keeps advancing, reaching
the state `(c0 - j * bss, a0 + j)` after `j` iterations. -/
theorem stepsTo_adv {tbl : Option ℕ → Option ℕ} {bss : ℕ} (ht : TableSpec tbl bss)
    (maxLog : ℕ) :
    ∀ (j : ℕ) (c0 : ℤ) (a0 : ℕ),
    (∀ i : ℕ, i < j → ((bss / 2 : ℕ) : ℤ) < c0 - (i : ℕ) * (bss : ℤ)) →
    (∀ i : ℕ, i < j → (a0 + i) * bss % U64 ≤ maxLog) →
    a0 + j < U64 →
    stepsTo tbl bss maxLog (-((bss : ℕ) : ℤ)) j (c0, a0) =
      some (c0 - (j : ℕ) * (bss : ℤ), a0 + j) := by
  intro j
  induction j with
  | zero =>
    intro c0 a0 _ _ _
    simp [stepsTo]
  | succ j ih =>
    intro c0 a0 hpos herr hwrap
    have h0 : ((bss / 2 : ℕ) : ℤ) < c0 := by
      have := hpos 0 (by omega)
      simpa using this
    have hc0pos : 0 < c0 := lt_of_le_of_lt (by positivity) h0
    have hstep := step_miss_adv ht maxLog (-((bss : ℕ) : ℤ)) c0 a0
      (by omega) (by omega) (herr 0 (by omega))
    have ha1 : (a0 + 1) % U64 = a0 + 1 := Nat.mod_eq_of_lt (by omega)
    simp only [stepsTo, hstep, ha1]
    have := ih (c0 + -((bss : ℕ) : ℤ)) (a0 + 1)
      (fun i hi => by
        have := hpos (i + 1) (by omega)
        push_cast at this ⊢
        linarith)
      (fun i hi => by
        have := herr (i + 1) (by omega)
        rw [show a0 + 1 + i = a0 + (i + 1) by ring]
        exact this)
      (by omega)
    rw [this]
    have h1 : c0 + -((bss : ℕ) : ℤ) - (j : ℕ) * ((bss : ℕ) : ℤ)
        = c0 - ((j + 1 : ℕ) : ℤ) * ((bss : ℕ) : ℤ) := by
      push_cast
      ring
    have h2 : a0 + 1 + j = a0 + (j + 1) := by omega
    rw [h1, h2]

/-! ## Bounds on the modelled f64 square-root pipeline -/

theorem roundNearestEven_le (n s : ℕ) (hs : 0 < s) :
    roundNearestEven n s ≤ (n / s + 1) * s := by
  unfold roundNearestEven
  split_ifs <;> nlinarith [Nat.div_mul_le_self n s]

theorem roundNearestEven_ge (n s : ℕ) (hs : 0 < s) :
    n / s * s ≤ roundNearestEven n s := by
  unfold roundNearestEven
  split_ifs <;> nlinarith

theorem f64ofU64_le {n : ℕ} (h : n < U64) : f64ofU64 n ≤ U64 := by
  unfold f64ofU64
  split_ifs with hsmall
  · omega
  · set s := 2 ^ (nlog2 n - 52) with hs
    have hn1 : 1 ≤ n := by omega
    have hn128 : n < 2 ^ 128 := lt_of_lt_of_le h (by norm_num [U64])
    have hlog : nlog2 n ≤ 63 := by
      obtain ⟨hle, -⟩ := nlog2_spec n hn1 hn128
      by_contra hcon
      have h64 : (64 : ℕ) ≤ nlog2 n := by omega
      have : (2 : ℕ) ^ 64 ≤ 2 ^ nlog2 n := Nat.pow_le_pow_right (by norm_num) h64
      have : (2 : ℕ) ^ 64 ≤ n := le_trans this hle
      simp only [U64] at h
      omega
    have hdvd : s ∣ U64 := by
      rw [hs, U64]
      exact pow_dvd_pow 2 (by omega)
    have hspos : 0 < s := Nat.pos_pow_of_pos _ (by norm_num)
    calc roundNearestEven n s ≤ (n / s + 1) * s := roundNearestEven_le n s hspos
    _ ≤ U64 / s * s := by
        have : n / s < U64 / s := Nat.div_lt_div_of_lt_of_dvd hdvd h
        exact Nat.mul_le_mul_right s (by omega)
    _ = U64 := Nat.div_mul_cancel hdvd

theorem f64ofU64_pos {n : ℕ} (h1 : 1 ≤ n) (h2 : n < U64) : 1 ≤ f64ofU64 n := by
  unfold f64ofU64
  split_ifs with hsmall
  · omega
  · set s := 2 ^ (nlog2 n - 52) with hs
    have hn128 : n < 2 ^ 128 := lt_of_lt_of_le h2 (by norm_num [U64])
    have hle : 2 ^ nlog2 n ≤ n := (nlog2_spec n h1 hn128).1
    have hsle : s ≤ n := by
      calc s ≤ 2 ^ nlog2 n := Nat.pow_le_pow_right (by norm_num) (by omega)
      _ ≤ n := hle
    have hspos : 0 < s := Nat.pos_pow_of_pos _ (by norm_num)
    have hq : 1 ≤ n / s := (Nat.one_le_div_iff hspos).mpr hsle
    have hpos : 0 < n / s * s := Nat.mul_pos (by omega) hspos
    calc 1 ≤ n / s * s := hpos
    _ ≤ roundNearestEven n s := roundNearestEven_ge n s hspos

theorem f64SqrtRound_pos {bigN : ℕ} (h1 : 1 ≤ bigN) (h2 : bigN < 4 ^ 128) :
    1 ≤ f64SqrtRound bigN := by
  unfold f64SqrtRound
  have hs1 : 1 ≤ nsqrt bigN := by
    by_contra hcon
    have hs0 : nsqrt bigN = 0 := by omega
    obtain ⟨-, hlt⟩ := nsqrt_spec bigN h2
    rw [hs0] at hlt
    omega
  split_ifs <;> omega

theorem f64SqrtRound_le {bigN M : ℕ} (h2 : bigN < 4 ^ 128) (hM : bigN < M * M) :
    f64SqrtRound bigN ≤ M := by
  unfold f64SqrtRound
  obtain ⟨hle, -⟩ := nsqrt_spec bigN h2
  have hsM : nsqrt bigN < M := by
    by_contra hcon
    have : M * M ≤ nsqrt bigN * nsqrt bigN := Nat.mul_le_mul (by omega) (by omega)
    omega
  split_ifs <;> omega

theorem f64CeilDiv_pos {m sh : ℕ} (h : 1 ≤ m) : 1 ≤ f64CeilDiv m sh := by
  unfold f64CeilDiv
  have hshpos : 1 ≤ 2 ^ sh := Nat.one_le_pow _ _ (by norm_num)
  refine (Nat.one_le_div_iff (by omega)).mpr ?_
  omega

theorem f64CeilDiv_le {m sh A : ℕ} (h : m ≤ A * 2 ^ sh) : f64CeilDiv m sh ≤ A := by
  unfold f64CeilDiv
  have hshpos : 1 ≤ 2 ^ sh := Nat.one_le_pow _ _ (by norm_num)
  rw [Nat.div_le_iff_le_mul_add_pred (by omega)]
  have hc : 2 ^ sh * A = A * 2 ^ sh := Nat.mul_comm _ _
  omega

theorem f64CeilDiv_exact (t sh : ℕ) : f64CeilDiv (t * 2 ^ sh) sh = t := by
  unfold f64CeilDiv
  have hshpos : 1 ≤ 2 ^ sh := Nat.one_le_pow _ _ (by norm_num)
  rw [show t * 2 ^ sh + 2 ^ sh - 1 = 2 ^ sh * t + (2 ^ sh - 1) by ring_nf; omega]
  rw [Nat.mul_add_div (by omega)]
  rw [Nat.div_eq_of_lt (by omega)]
  omega

theorem sqrtCeilF64_pos {n : ℕ} (h1 : 1 ≤ n) (h2 : n < U64) : 1 ≤ sqrtCeilF64 n := by
  unfold sqrtCeilF64
  have hr1 : 1 ≤ f64ofU64 n := f64ofU64_pos h1 h2
  have hrU : f64ofU64 n ≤ U64 := f64ofU64_le h2
  rw [if_neg (by omega)]
  refine f64CeilDiv_pos (f64SqrtRound_pos ?_ ?_)
  · exact le_trans hr1 (Nat.le_mul_of_pos_right _ (Nat.pos_pow_of_pos _ (by norm_num)))
  · calc f64ofU64 n * 4 ^ (52 - nlog2 (f64ofU64 n) / 2) ≤ U64 * 4 ^ 52 :=
      Nat.mul_le_mul hrU (Nat.pow_le_pow_right (by norm_num) (by omega))
    _ < 4 ^ 128 := by norm_num [U64]

theorem sqrtCeilF64_le {n : ℕ} (h2 : n < U64) : sqrtCeilF64 n ≤ 2 ^ 33 := by
  unfold sqrtCeilF64
  split_ifs with h0
  · positivity
  · have hrU : f64ofU64 n ≤ U64 := f64ofU64_le h2
    set r1 := f64ofU64 n with hr
    have hr1 : 1 ≤ r1 := by omega
    have hr128 : r1 < 2 ^ 128 := lt_of_le_of_lt hrU (by norm_num [U64])
    obtain ⟨hlle, hllt⟩ := nlog2_spec r1 hr1 hr128
    have hlog : nlog2 r1 ≤ 64 := by
      by_contra hcon
      have : (2 : ℕ) ^ 65 ≤ 2 ^ nlog2 r1 := Nat.pow_le_pow_right (by norm_num) (by omega)
      have : (2 : ℕ) ^ 65 ≤ r1 := le_trans this hlle
      simp only [U64] at hrU
      omega
    set k := nlog2 r1 / 2 with hk
    have hk32 : k ≤ 32 := by omega
    have hsh : 52 - k + (k + 1) = 53 := by omega
    -- r1 < 2^(2k+2), so bigN < (2^53)^2 and the rounded root is at most 2^53
    have hrlt : r1 < 2 ^ (2 * k + 2) := by
      calc r1 < 2 ^ (nlog2 r1 + 1) := hllt
      _ ≤ 2 ^ (2 * k + 2) := Nat.pow_le_pow_right (by norm_num) (by omega)
    have hbig : r1 * 4 ^ (52 - k) < 2 ^ 53 * 2 ^ 53 := by
      calc r1 * 4 ^ (52 - k) < 2 ^ (2 * k + 2) * 4 ^ (52 - k) :=
        Nat.mul_lt_mul_of_lt_of_le hrlt (le_refl _) (by positivity)
      _ = 2 ^ 53 * 2 ^ 53 := by
          rw [show (4 : ℕ) = 2 ^ 2 by norm_num, ← Nat.pow_mul, ← Nat.pow_add]
          rw [← Nat.pow_add]
          congr 1
          omega
    have hround : f64SqrtRound (r1 * 4 ^ (52 - k)) ≤ 2 ^ 53 := by
      refine f64SqrtRound_le ?_ hbig
      calc r1 * 4 ^ (52 - k) < 2 ^ 53 * 2 ^ 53 := hbig
      _ < 4 ^ 128 := by norm_num
    refine le_trans (f64CeilDiv_le ?_) (le_refl (2 ^ (k + 1))) |>.trans ?_
    · calc f64SqrtRound (r1 * 4 ^ (52 - k)) ≤ 2 ^ 53 := hround
      _ = 2 ^ (k + 1) * 2 ^ (52 - k) := by
          rw [← Nat.pow_add]
          congr 1
          omega
    · exact Nat.pow_le_pow_right (by norm_num) (by omega)

/-- On perfect squares that convert exactly to `f64`, the modelled pipeline
agrees with the exact integer square root: no rounding error occurs. -/
theorem sqrtCeilF64_sq {t : ℕ} (h1 : 1 ≤ t) (h2 : t * t ≤ 2 ^ 53) :
    sqrtCeilF64 (t * t) = t := by
  have hconv : f64ofU64 (t * t) = t * t := by
    unfold f64ofU64
    rw [if_pos h2]
  unfold sqrtCeilF64
  rw [hconv, if_neg (by positivity)]
  set sh := 52 - nlog2 (t * t) / 2 with hsh
  have hbig : t * t * 4 ^ sh = t * 2 ^ sh * (t * 2 ^ sh) := by
    rw [show (4 : ℕ) = 2 * 2 by norm_num, Nat.mul_pow]
    ring
  have hlt : t * t * 4 ^ sh < 4 ^ 128 := by
    calc t * t * 4 ^ sh ≤ 2 ^ 53 * 4 ^ 52 :=
      Nat.mul_le_mul h2 (Nat.pow_le_pow_right (by norm_num) (by omega))
    _ < 4 ^ 128 := by norm_num
  have hsqrt : nsqrt (t * t * 4 ^ sh) = t * 2 ^ sh := by
    refine nsqrt_unique _ _ hlt (by rw [hbig]) ?_
    rw [hbig]
    exact Nat.mul_lt_mul_of_lt_of_le (Nat.lt_succ_self _) (Nat.le_succ _) (by omega)
  have hround : f64SqrtRound (t * t * 4 ^ sh) = t * 2 ^ sh := by
    unfold f64SqrtRound
    rw [hsqrt, if_pos (by rw [hbig]; omega)]
  rw [hround, f64CeilDiv_exact]

/-! ## Glue lemmas for the batch solver -/

theorem batch_singleton_ok {t : BabyStepsTable} {maxLog : ℕ} {p : ℤ} {fuel r : ℕ}
    (h : solveOne t maxLog p fuel = some (SolveResult.ok r)) :
    baby_step_giant_step [p] maxLog t fuel = some (BatchResult.ok [r]) := by
  unfold baby_step_giant_step
  rw [List.mapM_cons, List.mapM_nil]
  simp only [h, Option.bind_eq_bind, Option.some_bind, Option.pure_def]
  rfl

theorem batch_singleton_err {t : BabyStepsTable} {maxLog : ℕ} {p : ℤ} {fuel : ℕ}
    (h : solveOne t maxLog p fuel = some SolveResult.maxLogExceeded) :
    baby_step_giant_step [p] maxLog t fuel = some BatchResult.maxLogExceeded := by
  unfold baby_step_giant_step
  rw [List.mapM_cons, List.mapM_nil]
  simp only [h, Option.bind_eq_bind, Option.some_bind, Option.pure_def]
  rfl

/-! ## Claim theorems -/

/-- C2: Discrete-log correctness.  For every integer `x` in `[0, max_value]`,
with the table built from `max_value` (default balance) and target
`p = generator * x`, solving the single-element batch `[p]` with bound
`max_log ≥ max_value` returns `[x]`; this includes the boundaries `x = 0`
(the identity element, keyed by the reserved no-coordinate entry) and
`x = max_value`.  The loop exits within `max_log + 2` iterations, which is
the fuel supplied to the embedded solver. -/
theorem claim_C2 (max_value x maxLog : ℕ)
    (hx : x ≤ max_value) (hmv : max_value ≤ maxLog) (hml : maxLog < U64) :
    baby_step_giant_step [((x : ℕ) : ℤ) * gGen ℤ] maxLog
      (BabyStepsTable.generate max_value) (maxLog + 2) =
      some (BatchResult.ok [x]) := by
  have htgt : ((x : ℕ) : ℤ) * gGen ℤ = ((x : ℕ) : ℤ) := by
    simp [gGen]
  rw [htgt]
  apply batch_singleton_ok
  have ht : TableSpec (BabyStepsTable.generate max_value).table
      (BabyStepsTable.generate max_value).baby_step_size :=
    generate_tableSpec max_value DEFAULT_BALANCE
  unfold solveOne
  rw [show (BabyStepsTable.generate max_value).giant_step =
      -(((BabyStepsTable.generate max_value).baby_step_size : ℕ) : ℤ) from
    generate_giant max_value DEFAULT_BALANCE]
  rcases Nat.eq_zero_or_pos max_value with h0 | hpos
  · -- max_value = 0 forces x = 0; the identity is found at the first lookup
    subst h0
    have hx0 : x = 0 := by omega
    subst hx0
    obtain ⟨f, hf⟩ : ∃ f, maxLog + 2 = f + 1 := ⟨maxLog + 1, rfl⟩
    rw [hf]
    simp only [Nat.cast_zero, bsgsRun,
      step_found_zero ht maxLog (-(((BabyStepsTable.generate 0).baby_step_size : ℕ) : ℤ)) 0]
    simp
  · have hmvU : max_value < U64 := by omega
    have hc1 : 1 ≤ sqrtCeilF64 max_value := sqrtCeilF64_pos hpos hmvU
    have hc2 : sqrtCeilF64 max_value ≤ 2 ^ 33 := sqrtCeilF64_le hmvU
    have hbss : (BabyStepsTable.generate max_value).baby_step_size =
        sqrtCeilF64 max_value * 2 := by
      rw [show (BabyStepsTable.generate max_value).baby_step_size =
          sqrtCeilF64 max_value * DEFAULT_BALANCE % U64 from
        generate_bss max_value DEFAULT_BALANCE]
      simp only [DEFAULT_BALANCE]
      exact Nat.mod_eq_of_lt (by norm_num [U64]; omega)
    apply run_finds ht maxLog _ (generate_bss_lt max_value DEFAULT_BALANCE) hml x x 0
    · omega
    · omega
    · have : x / (BabyStepsTable.generate max_value).baby_step_size ≤ x :=
        Nat.div_le_self _ _
      omega
    · rw [hbss]
      omega

/-- Witness for C2 at the concrete instance `max_value = 25`, `x = 7`,
`max_log = 25` (default balance, so the baby-step size is 10). -/
theorem claim_C2_witness :
    (7 ≤ 25 ∧ 25 ≤ 25 ∧ 25 < U64) ∧
    baby_step_giant_step [((7 : ℕ) : ℤ) * gGen ℤ] 25 (BabyStepsTable.generate 25) 27 =
      some (BatchResult.ok [7]) :=
  ⟨⟨by norm_num, le_refl 25, by norm_num [U64]⟩,
    claim_C2 25 7 25 (by norm_num) (le_refl 25) (by norm_num [U64])⟩

theorem collect_mem_err : ∀ rs : List SolveResult, SolveResult.maxLogExceeded ∈ rs →
    collectResults rs = BatchResult.maxLogExceeded := by
  intro rs
  induction rs with
  | nil => intro h; simp at h
  | cons r rest ih =>
    intro h
    cases r with
    | maxLogExceeded => rfl
    | ok v =>
      have hmem : SolveResult.maxLogExceeded ∈ rest := by
        rcases List.mem_cons.mp h with h1 | h1
        · exact absurd h1 (by simp)
        · exact h1
      show (match collectResults rest with
        | BatchResult.ok rs => BatchResult.ok (v :: rs)
        | BatchResult.maxLogExceeded => BatchResult.maxLogExceeded) =
        BatchResult.maxLogExceeded
      rw [ih hmem]

theorem collect_all_ok : ∀ vals : List ℕ,
    collectResults (vals.map SolveResult.ok) = BatchResult.ok vals := by
  intro vals
  induction vals with
  | nil => rfl
  | cons v rest ih =>
    show (match collectResults (rest.map SolveResult.ok) with
      | BatchResult.ok rs => BatchResult.ok (v :: rs)
      | BatchResult.maxLogExceeded => BatchResult.maxLogExceeded) = BatchResult.ok (v :: rest)
    rw [ih]

theorem collect_ok_inv : ∀ rs : List SolveResult, ∀ vals : List ℕ,
    collectResults rs = BatchResult.ok vals → rs = vals.map SolveResult.ok := by
  intro rs
  induction rs with
  | nil =>
    intro vals h
    simp only [collectResults] at h
    obtain rfl := (BatchResult.ok.injEq _ _ ▸ h).symm
    rfl
  | cons r rest ih =>
    intro vals h
    cases r with
    | maxLogExceeded => simp [collectResults] at h
    | ok v =>
      have h2 : (match collectResults rest with
        | BatchResult.ok rs => BatchResult.ok (v :: rs)
        | BatchResult.maxLogExceeded => BatchResult.maxLogExceeded) = BatchResult.ok vals := h
      cases hrest : collectResults rest with
      | maxLogExceeded => rw [hrest] at h2; simp at h2
      | ok vs =>
        rw [hrest] at h2
        have hv : v :: vs = vals := by
          simpa using h2
        subst hv
        rw [List.map_cons, ih vs hrest]

theorem mapM_option_length {α β : Type} (f : α → Option β) :
    ∀ (l : List α) (rs : List β), l.mapM f = some rs → rs.length = l.length := by
  intro l
  induction l with
  | nil =>
    intro rs h
    rw [List.mapM_nil] at h
    obtain rfl : [] = rs := by simpa using h
    rfl
  | cons a rest ih =>
    intro rs h
    rw [List.mapM_cons] at h
    cases hf : f a with
    | none => rw [hf] at h; simp at h
    | some b =>
      rw [hf] at h
      cases hrest : rest.mapM f with
      | none => rw [hrest] at h; simp at h
      | some bs =>
        rw [hrest] at h
        have : b :: bs = rs := by simpa using h
        subst this
        simp [ih bs hrest]

/-- C3 counterexample: with the table built from `max_value = 25`,
`balance = 1` (baby-step size 5) and `max_log = 10`, the target
`generator * 12` has discrete log `12 > 10`, yet the solver returns
`Ok([12])` rather than the claimed `MaxLogExceeded`: the table lookup at the
third giant step succeeds before the bound check (which only runs after a
failed lookup) can fire. -/
theorem claim_C3_counterexample :
    10 < 12 ∧
    baby_step_giant_step [((12 : ℕ) : ℤ) * gGen ℤ] 10
      (BabyStepsTable.generate_with_balance 25 1) 6 =
      some (BatchResult.ok [12]) ∧
    baby_step_giant_step [((12 : ℕ) : ℤ) * gGen ℤ] 10
      (BabyStepsTable.generate_with_balance 25 1) 6 ≠
      some BatchResult.maxLogExceeded := by
  refine ⟨by norm_num, ?_, ?_⟩ <;> decide

/-- C3 amended: for a target `generator * x` with `x > max_log` (and a table
whose baby-step size is at least 1), the solver neither returns a wrong value
nor loops forever: within `x / baby_step_size + 2` iterations it exits,
returning either the exact discrete log `[x]` (possible when the lookup hits
before the bound check fires, as in the counterexample) or the
`MaxLogExceeded` failure. -/
theorem claim_C3_amended (max_value balance x maxLog : ℕ)
    (hB : 1 ≤ (BabyStepsTable.generate_with_balance max_value balance).baby_step_size)
    (hxU : x < U64) (hgt : maxLog < x) :
    baby_step_giant_step [((x : ℕ) : ℤ) * gGen ℤ] maxLog
        (BabyStepsTable.generate_with_balance max_value balance)
        (x / (BabyStepsTable.generate_with_balance max_value balance).baby_step_size + 2) =
      some (BatchResult.ok [x]) ∨
    baby_step_giant_step [((x : ℕ) : ℤ) * gGen ℤ] maxLog
        (BabyStepsTable.generate_with_balance max_value balance)
        (x / (BabyStepsTable.generate_with_balance max_value balance).baby_step_size + 2) =
      some BatchResult.maxLogExceeded := by
  have htgt : ((x : ℕ) : ℤ) * gGen ℤ = ((x : ℕ) : ℤ) := by simp [gGen]
  rw [htgt]
  have ht := generate_tableSpec max_value balance
  have hrun := run_term ht maxLog hB (generate_bss_lt max_value balance) x x 0
    (x / (BabyStepsTable.generate_with_balance max_value balance).baby_step_size + 2)
    (by omega) hxU (le_refl _)
  have hsolve : solveOne (BabyStepsTable.generate_with_balance max_value balance) maxLog
      ((x : ℕ) : ℤ)
      (x / (BabyStepsTable.generate_with_balance max_value balance).baby_step_size + 2) =
      bsgsRun (BabyStepsTable.generate_with_balance max_value balance).table
        (BabyStepsTable.generate_with_balance max_value balance).baby_step_size maxLog
        (-(((BabyStepsTable.generate_with_balance max_value balance).baby_step_size : ℕ) : ℤ))
        (x / (BabyStepsTable.generate_with_balance max_value balance).baby_step_size + 2)
        (((x : ℕ) : ℤ), 0) := by
    unfold solveOne
    rw [generate_giant]
  rcases hrun with h | h
  · exact Or.inl (batch_singleton_ok (hsolve.trans h))
  · exact Or.inr (batch_singleton_err (hsolve.trans h))

/-- Witness for the amended C3 at `max_value = 25`, `balance = 1`, `x = 12`,
`max_log = 10`. -/
theorem claim_C3_amended_witness :
    (1 ≤ (BabyStepsTable.generate_with_balance 25 1).baby_step_size ∧
      12 < U64 ∧ 10 < 12) ∧
    (baby_step_giant_step [((12 : ℕ) : ℤ) * gGen ℤ] 10
        (BabyStepsTable.generate_with_balance 25 1)
        (12 / (BabyStepsTable.generate_with_balance 25 1).baby_step_size + 2) =
      some (BatchResult.ok [12]) ∨
    baby_step_giant_step [((12 : ℕ) : ℤ) * gGen ℤ] 10
        (BabyStepsTable.generate_with_balance 25 1)
        (12 / (BabyStepsTable.generate_with_balance 25 1).baby_step_size + 2) =
      some BatchResult.maxLogExceeded) :=
  ⟨⟨by decide, by norm_num [U64], by norm_num⟩,
    claim_C3_amended 25 1 12 10 (by decide) (by norm_num [U64]) (by norm_num)⟩

/-- With `max_value = 0` the baby-step size is 0 and the giant step is the
identity, so on any non-identity target outside the (singleton) table the
loop makes no progress: it never exits, whatever the iteration budget. -/
theorem bsgs_zero_stuck :
    ∀ (fuel a : ℕ),
    bsgsRun (BabyStepsTable.generate_with_balance 0 2).table
      (BabyStepsTable.generate_with_balance 0 2).baby_step_size 0
      (BabyStepsTable.generate_with_balance 0 2).giant_step fuel (gGen ℤ, a) = none := by
  have hbss : (BabyStepsTable.generate_with_balance 0 2).baby_step_size = 0 := rfl
  have hgiant : (BabyStepsTable.generate_with_balance 0 2).giant_step = 0 := by
    rw [generate_giant, hbss]
    norm_num
  intro fuel
  induction fuel with
  | zero => intro a; rfl
  | succ f ih =>
    intro a
    have hstep := step_miss_adv (generate_tableSpec 0 2) 0
      (BabyStepsTable.generate_with_balance 0 2).giant_step (gGen ℤ) a
      (by norm_num [gGen]) (by rw [hbss]; norm_num [gGen]) (by rw [hbss]; simp)
    simp only [bsgsRun, hstep, hgiant, add_zero]
    exact ih ((a + 1) % U64)

/-- C5 counterexample: the claim quantifies over every `max_value` and
`balance`, but for the table generated from `max_value = 0` (any balance;
shown for the default 2) and the target `generator * 1`, the search loop of
`baby_step_giant_step` never terminates: the batch returns no result for any
iteration budget. -/
theorem claim_C5_counterexample :
    ¬ ∃ (fuel : ℕ) (r : BatchResult),
      baby_step_giant_step [gGen ℤ] 0 (BabyStepsTable.generate_with_balance 0 2) fuel =
        some r := by
  rintro ⟨fuel, r, h⟩
  unfold baby_step_giant_step at h
  rw [List.mapM_cons, List.mapM_nil] at h
  have h0 : solveOne (BabyStepsTable.generate_with_balance 0 2) 0 (gGen ℤ) fuel = none :=
    bsgs_zero_stuck fuel 0
  rw [h0] at h
  simp at h

/-- C5 amended: the solver's loop terminates for every generated table whose
`baby_step_size` is at least 1 (this excludes `max_value = 0`, `balance = 0`,
and wrap-around products, on which the loop can run forever) and every target
`generator * x` with `x < 2^64`: within `x / baby_step_size + 2` iterations it
exits with a value or a bound-exceeded failure.  For `x ≤ max_log` this bound
is at most `max_log / baby_step_size + 2` giant steps, as the specification
states. -/
theorem claim_C5_amended (max_value balance x maxLog : ℕ)
    (hB : 1 ≤ (BabyStepsTable.generate_with_balance max_value balance).baby_step_size)
    (hxU : x < U64) :
    ∃ r : SolveResult,
      solveOne (BabyStepsTable.generate_with_balance max_value balance) maxLog
        (((x : ℕ) : ℤ) * gGen ℤ)
        (x / (BabyStepsTable.generate_with_balance max_value balance).baby_step_size + 2) =
      some r := by
  have htgt : ((x : ℕ) : ℤ) * gGen ℤ = ((x : ℕ) : ℤ) := by simp [gGen]
  rw [htgt]
  have ht := generate_tableSpec max_value balance
  have hrun := run_term ht maxLog hB (generate_bss_lt max_value balance) x x 0
    (x / (BabyStepsTable.generate_with_balance max_value balance).baby_step_size + 2)
    (by omega) hxU (le_refl _)
  unfold solveOne
  rw [generate_giant]
  rcases hrun with h | h
  · exact ⟨SolveResult.ok x, h⟩
  · exact ⟨SolveResult.maxLogExceeded, h⟩

/-- Witness for the amended C5 at `max_value = 25`, `balance = 1`, `x = 12`,
`max_log = 10`. -/
theorem claim_C5_amended_witness :
    (1 ≤ (BabyStepsTable.generate_with_balance 25 1).baby_step_size ∧ 12 < U64) ∧
    ∃ r : SolveResult,
      solveOne (BabyStepsTable.generate_with_balance 25 1) 10 (((12 : ℕ) : ℤ) * gGen ℤ)
        (12 / (BabyStepsTable.generate_with_balance 25 1).baby_step_size + 2) =
      some r :=
  ⟨⟨by decide, by norm_num [U64]⟩,
    claim_C5_amended 25 1 12 10 (by decide) (by norm_num [U64])⟩

/-- C4 counterexample: the batch `[generator * 1, generator * 18]` with
`max_log = 10` (table from `max_value = 25`, `balance = 1`) contains one
target that solves to `1` and one that exceeds the bound; the solver returns
the single global failure `MaxLogExceeded` — not a sequence with one entry
per target — so the successful target's recovered value is discarded. -/
theorem claim_C4_counterexample :
    baby_step_giant_step [((1 : ℕ) : ℤ) * gGen ℤ, ((18 : ℕ) : ℤ) * gGen ℤ] 10
        (BabyStepsTable.generate_with_balance 25 1) 6 =
      some BatchResult.maxLogExceeded ∧
    baby_step_giant_step [((1 : ℕ) : ℤ) * gGen ℤ] 10
        (BabyStepsTable.generate_with_balance 25 1) 6 =
      some (BatchResult.ok [1]) ∧
    baby_step_giant_step [((18 : ℕ) : ℤ) * gGen ℤ] 10
        (BabyStepsTable.generate_with_balance 25 1) 6 =
      some BatchResult.maxLogExceeded := by
  refine ⟨?_, ?_, ?_⟩ <;> decide

/-- C4 amended: each target of a batch is solved independently, but the
per-element results are collected into a single `Result`: if any target's
solve ends in `MaxLogExceeded`, the whole batch returns that single failure
(the other targets' recovered values are discarded); only when every target
succeeds does the solver return an ordered sequence with one entry per
input target. -/
theorem claim_C4_amended (points : List ℤ) (maxLog : ℕ) (t : BabyStepsTable) (fuel : ℕ)
    (rs : List SolveResult)
    (h : points.mapM (fun p => solveOne t maxLog p fuel) = some rs) :
    (SolveResult.maxLogExceeded ∈ rs →
      baby_step_giant_step points maxLog t fuel = some BatchResult.maxLogExceeded) ∧
    (∀ vals : List ℕ, rs = vals.map SolveResult.ok →
      baby_step_giant_step points maxLog t fuel = some (BatchResult.ok vals) ∧
      vals.length = points.length) := by
  have hbatch : baby_step_giant_step points maxLog t fuel = some (collectResults rs) := by
    unfold baby_step_giant_step
    rw [h]
  constructor
  · intro hmem
    rw [hbatch, collect_mem_err rs hmem]
  · intro vals hvals
    subst hvals
    refine ⟨by rw [hbatch, collect_all_ok], ?_⟩
    have := mapM_option_length (fun p => solveOne t maxLog p fuel) points
      (vals.map SolveResult.ok) h
    simpa using this

/-- Witness for the amended C4 on the concrete batch
`[generator * 1, generator * 18]` of the counterexample. -/
theorem claim_C4_amended_witness :
    ([((1 : ℕ) : ℤ) * gGen ℤ, ((18 : ℕ) : ℤ) * gGen ℤ].mapM
        (fun p => solveOne (BabyStepsTable.generate_with_balance 25 1) 10 p 6) =
      some [SolveResult.ok 1, SolveResult.maxLogExceeded]) ∧
    baby_step_giant_step [((1 : ℕ) : ℤ) * gGen ℤ, ((18 : ℕ) : ℤ) * gGen ℤ] 10
        (BabyStepsTable.generate_with_balance 25 1) 6 =
      some BatchResult.maxLogExceeded :=
  ⟨by decide,
    (claim_C4_amended [((1 : ℕ) : ℤ) * gGen ℤ, ((18 : ℕ) : ℤ) * gGen ℤ] 10
        (BabyStepsTable.generate_with_balance 25 1) 6
        [SolveResult.ok 1, SolveResult.maxLogExceeded] (by decide)).1 (by decide)⟩

theorem mapM_option_get {α β : Type} (f : α → Option β) :
    ∀ (l : List α) (rs : List β), l.mapM f = some rs →
    ∀ (i : ℕ) (a : α), l[i]? = some a → ∃ b, rs[i]? = some b ∧ f a = some b := by
  intro l
  induction l with
  | nil =>
    intro rs h i a ha
    simp at ha
  | cons x rest ih =>
    intro rs h i a ha
    rw [List.mapM_cons] at h
    cases hf : f x with
    | none => rw [hf] at h; simp at h
    | some b =>
      rw [hf] at h
      cases hrest : rest.mapM f with
      | none => rw [hrest] at h; simp at h
      | some bs =>
        rw [hrest] at h
        have hrs : b :: bs = rs := by simpa using h
        subst hrs
        cases i with
        | zero =>
          have : x = a := by simpa using ha
          subst this
          exact ⟨b, by simp, hf⟩
        | succ i =>
          have ha2 : rest[i]? = some a := by simpa using ha
          obtain ⟨b2, hb2, hfb2⟩ := ih bs hrest i a ha2
          exact ⟨b2, by simpa using hb2, hfb2⟩

/-- C9 counterexample: the input sequence `[generator * 2, generator * 19]`
(table from `max_value = 25`, `balance = 1`, `max_log = 10`) produces no
output sequence at all — the batch collapses to the single failure
`MaxLogExceeded` because the second target exceeds the bound — even though
the first target on its own solves to `2`.  So the output is not a sequence
with one entry per input. -/
theorem claim_C9_counterexample :
    baby_step_giant_step [((2 : ℕ) : ℤ) * gGen ℤ, ((19 : ℕ) : ℤ) * gGen ℤ] 10
        (BabyStepsTable.generate_with_balance 25 1) 6 =
      some BatchResult.maxLogExceeded ∧
    baby_step_giant_step [((2 : ℕ) : ℤ) * gGen ℤ] 10
        (BabyStepsTable.generate_with_balance 25 1) 6 =
      some (BatchResult.ok [2]) ∧
    ¬ ∃ vals : List ℕ,
      baby_step_giant_step [((2 : ℕ) : ℤ) * gGen ℤ, ((19 : ℕ) : ℤ) * gGen ℤ] 10
          (BabyStepsTable.generate_with_balance 25 1) 6 =
        some (BatchResult.ok vals) := by
  have h : baby_step_giant_step [((2 : ℕ) : ℤ) * gGen ℤ, ((19 : ℕ) : ℤ) * gGen ℤ] 10
      (BabyStepsTable.generate_with_balance 25 1) 6 =
      some BatchResult.maxLogExceeded := by decide
  refine ⟨h, by decide, ?_⟩
  rintro ⟨vals, hv⟩
  rw [h] at hv
  simp at hv

/-- C9 amended: whenever the solver does return an output sequence (that is,
no target exceeded the bound), the sequence has one entry per input target
and its `i`-th entry is exactly the value obtained by solving the `i`-th
input element on its own with the same table and `max_log`. -/
theorem claim_C9_amended (points : List ℤ) (maxLog : ℕ) (t : BabyStepsTable) (fuel : ℕ)
    (vals : List ℕ)
    (h : baby_step_giant_step points maxLog t fuel = some (BatchResult.ok vals)) :
    vals.length = points.length ∧
    ∀ (i : ℕ) (p : ℤ), points[i]? = some p →
      ∃ v : ℕ, vals[i]? = some v ∧
        baby_step_giant_step [p] maxLog t fuel = some (BatchResult.ok [v]) := by
  unfold baby_step_giant_step at h
  cases hm : points.mapM (fun p => solveOne t maxLog p fuel) with
  | none => rw [hm] at h; simp at h
  | some rs =>
    rw [hm] at h
    have hcoll : collectResults rs = BatchResult.ok vals := by simpa using h
    have hrs : rs = vals.map SolveResult.ok := collect_ok_inv rs vals hcoll
    subst hrs
    constructor
    · have := mapM_option_length (fun p => solveOne t maxLog p fuel) points
        (vals.map SolveResult.ok) hm
      simpa using this
    · intro i p hp
      obtain ⟨b, hb, hfb⟩ := mapM_option_get (fun p => solveOne t maxLog p fuel) points
        (vals.map SolveResult.ok) hm i p hp
      rw [List.getElem?_map] at hb
      cases hv : vals[i]? with
      | none => rw [hv] at hb; simp at hb
      | some v =>
        rw [hv] at hb
        have hbv : b = SolveResult.ok v := by
          have : some (SolveResult.ok v) = some b := by simpa using hb
          simpa using this.symm
        subst hbv
        exact ⟨v, rfl, batch_singleton_ok hfb⟩

/-- Witness for the amended C9 on the concrete batch
`[generator * 2, generator * 3]` (both solvable, `max_log = 10`). -/
theorem claim_C9_amended_witness :
    baby_step_giant_step [((2 : ℕ) : ℤ) * gGen ℤ, ((3 : ℕ) : ℤ) * gGen ℤ] 10
        (BabyStepsTable.generate_with_balance 25 1) 6 =
      some (BatchResult.ok [2, 3]) ∧
    ([2, 3].length = 2 ∧
      ∀ (i : ℕ) (p : ℤ),
        [((2 : ℕ) : ℤ) * gGen ℤ, ((3 : ℕ) : ℤ) * gGen ℤ][i]? = some p →
        ∃ v : ℕ, [2, 3][i]? = some v ∧
          baby_step_giant_step [p] 10 (BabyStepsTable.generate_with_balance 25 1) 6 =
            some (BatchResult.ok [v])) :=
  ⟨by decide,
    (by decide : ([2, 3] : List ℕ).length =
        ([((2 : ℕ) : ℤ) * gGen ℤ, ((3 : ℕ) : ℤ) * gGen ℤ] : List ℤ).length) ▸
      claim_C9_amended [((2 : ℕ) : ℤ) * gGen ℤ, ((3 : ℕ) : ℤ) * gGen ℤ] 10
        (BabyStepsTable.generate_with_balance 25 1) 6 [2, 3] (by decide)⟩

/-- C10 amended: for a target `generator * k` with `k ≤ max_log` and a table
with `baby_step_size ≥ 1`, whenever the loop reaches (after `j < 2^64`
iterations) a state where it takes the negated-coordinate branch with stored
index `xs`, the mathematical product `j * baby_step_size` satisfies
`j * baby_step_size = k + xs ≥ xs` — but the `u64` product can wrap (so the
`u64` subtraction `a * baby_step_size - x` may underflow, as the
counterexample shows); the wrapping arithmetic still returns exactly the true
discrete log `k`. -/
theorem claim_C10_amended (max_value balance maxLog k j : ℕ)
    (hB : 1 ≤ (BabyStepsTable.generate_with_balance max_value balance).baby_step_size)
    (hk : k ≤ maxLog) (hml : maxLog < U64) (hj : j < U64)
    (p : ℤ) (a : ℕ)
    (hreach : stepsTo (BabyStepsTable.generate_with_balance max_value balance).table
      (BabyStepsTable.generate_with_balance max_value balance).baby_step_size maxLog
      (BabyStepsTable.generate_with_balance max_value balance).giant_step j
      (((k : ℕ) : ℤ) * gGen ℤ, 0) = some (p, a))
    (xs : ℕ)
    (hlook : (BabyStepsTable.generate_with_balance max_value balance).table (compress p) =
      some xs)
    (hneg : ¬ ((xs : ℕ) : ℤ) * gGen ℤ = p) :
    j * (BabyStepsTable.generate_with_balance max_value balance).baby_step_size = k + xs ∧
    bsgsStep (BabyStepsTable.generate_with_balance max_value balance).table
      (BabyStepsTable.generate_with_balance max_value balance).baby_step_size maxLog
      (BabyStepsTable.generate_with_balance max_value balance).giant_step p a =
      StepOut.done (SolveResult.ok k) := by
  set t := BabyStepsTable.generate_with_balance max_value balance with hts
  have ht : TableSpec t.table t.baby_step_size := generate_tableSpec max_value balance
  have htgt : ((k : ℕ) : ℤ) * gGen ℤ = ((k : ℕ) : ℤ) := by simp [gGen]
  rw [htgt] at hreach
  obtain ⟨hp, ha⟩ := stepsTo_inv j ((k : ℕ) : ℤ) 0 p a U64_pos hreach
  rw [Nat.zero_add, Nat.mod_eq_of_lt hj] at ha
  rw [generate_giant max_value balance] at hp
  rw [ha]
  -- identify the stored index from the table characterization
  have hp0 : p ≠ 0 := by
    intro h0
    rw [h0] at hlook
    rw [compress_zero, ht.1] at hlook
    have : xs = 0 := by simpa using hlook.symm
    subst this
    rw [h0] at hneg
    simp [gGen] at hneg
  have hcomp : compress p = some p.natAbs := by simp only [compress, if_neg hp0]
  rw [hcomp, ht.2] at hlook
  have hxs : xs = p.natAbs ∧ 1 ≤ p.natAbs ∧ p.natAbs ≤ t.baby_step_size / 2 := by
    by_cases hc : 1 ≤ p.natAbs ∧ p.natAbs ≤ t.baby_step_size / 2
    · rw [if_pos hc] at hlook
      exact ⟨by simpa using hlook.symm, hc⟩
    · rw [if_neg hc] at hlook
      simp at hlook
  obtain ⟨rfl, hge1, hle⟩ := hxs
  -- the negated branch forces the current point to be negative
  have hplt : p < 0 := by
    rcases lt_trichotomy p 0 with h | h | h
    · exact h
    · exact absurd h hp0
    · exfalso
      apply hneg
      show ((p.natAbs : ℕ) : ℤ) * 1 = p
      rw [mul_one]
      omega
  have hpeq : p = -((p.natAbs : ℕ) : ℤ) := by omega
  have hp2 : p = ((k : ℕ) : ℤ) - (j : ℤ) * ((t.baby_step_size : ℕ) : ℤ) := by
    rw [hp]
    ring
  have hsum : (j : ℤ) * ((t.baby_step_size : ℕ) : ℤ) = ((k : ℕ) : ℤ) + ((p.natAbs : ℕ) : ℤ) := by
    have heq1 : ((k : ℕ) : ℤ) - (j : ℤ) * ((t.baby_step_size : ℕ) : ℤ) = -((p.natAbs : ℕ) : ℤ) :=
      hp2.symm.trans hpeq
    linarith
  have hsumN : j * t.baby_step_size = k + p.natAbs := by exact_mod_cast hsum
  refine ⟨hsumN, ?_⟩
  have hstep := step_found_neg ht maxLog t.giant_step p.natAbs j hge1 hle
  rw [← hpeq] at hstep
  rw [hstep]
  have hbU : t.baby_step_size < U64 := generate_bss_lt max_value balance
  have hval : (j * t.baby_step_size % U64 + (U64 - p.natAbs)) % U64 = k := by
    rw [hsumN, wrap_sub_add k p.natAbs (by omega)]
    exact Nat.mod_eq_of_lt (by omega)
  rw [hval]

/-- C10 counterexample: with the table from `max_value = 64`, `balance = 1`
(baby-step size 8), target `generator * (2^64 - 1)` and
`max_log = 2^64 - 1`, the loop reaches after `2^61` iterations the state
`(-1, 2^61)`, where it takes the negated-coordinate branch with stored index
`x = 1`; the `u64` product `a * baby_step_size = 2^61 * 8` wraps to `0 < 1`,
so the `u64` subtraction `a * baby_step_size - x` underflows, contradicting
the claim — yet the wrapped result is still the true discrete log. -/
theorem claim_C10_counterexample :
    1 ≤ (BabyStepsTable.generate_with_balance 64 1).baby_step_size ∧
    stepsTo (BabyStepsTable.generate_with_balance 64 1).table
        (BabyStepsTable.generate_with_balance 64 1).baby_step_size (2 ^ 64 - 1)
        (BabyStepsTable.generate_with_balance 64 1).giant_step (2 ^ 61)
        (((2 ^ 64 - 1 : ℕ) : ℤ) * gGen ℤ, 0) = some ((-1 : ℤ), 2 ^ 61) ∧
    (BabyStepsTable.generate_with_balance 64 1).table (compress (-1 : ℤ)) = some 1 ∧
    ¬ ((1 : ℕ) : ℤ) * gGen ℤ = (-1 : ℤ) ∧
    2 ^ 61 * (BabyStepsTable.generate_with_balance 64 1).baby_step_size % U64 < 1 ∧
    bsgsStep (BabyStepsTable.generate_with_balance 64 1).table
        (BabyStepsTable.generate_with_balance 64 1).baby_step_size (2 ^ 64 - 1)
        (BabyStepsTable.generate_with_balance 64 1).giant_step (-1 : ℤ) (2 ^ 61) =
      StepOut.done (SolveResult.ok (2 ^ 64 - 1)) := by
  have hbss : (BabyStepsTable.generate_with_balance 64 1).baby_step_size = 8 := by decide
  have ht := generate_tableSpec 64 1
  refine ⟨by decide, ?_, by decide, by decide, by decide, by decide⟩
  have htgt : ((2 ^ 64 - 1 : ℕ) : ℤ) * gGen ℤ = ((2 ^ 64 - 1 : ℕ) : ℤ) := by simp [gGen]
  rw [htgt, generate_giant 64 1]
  have heq := stepsTo_adv ht (2 ^ 64 - 1) (2 ^ 61) ((2 ^ 64 - 1 : ℕ) : ℤ) 0
    (fun i hi => by
      rw [hbss]
      have h64 : ((2 ^ 64 - 1 : ℕ) : ℤ) = 18446744073709551615 := by norm_num
      rw [h64]
      have hi2 : (i : ℤ) < 2305843009213693952 := by exact_mod_cast hi
      have hi0 : (0 : ℤ) ≤ (i : ℤ) := by positivity
      norm_num
      nlinarith)
    (fun i hi => by
      have hlt := Nat.mod_lt ((0 + i) * (BabyStepsTable.generate_with_balance 64 1).baby_step_size) U64_pos
      have hU : U64 = 2 ^ 64 := rfl
      omega)
    (by norm_num [U64])
  rw [heq]
  rw [hbss]
  norm_num

/-- Witness for the amended C10: with the table from `max_value = 25`,
`balance = 1` (baby-step size 5), target `generator * 4` and `max_log = 10`,
after one giant step the state is `(-1, 1)` and the negated branch fires with
stored index 1; indeed `1 * 5 = 4 + 1` and the step returns the exact log 4. -/
theorem claim_C10_amended_witness :
    (1 ≤ (BabyStepsTable.generate_with_balance 25 1).baby_step_size ∧
      4 ≤ 10 ∧ 10 < U64 ∧ 1 < U64 ∧
      stepsTo (BabyStepsTable.generate_with_balance 25 1).table
        (BabyStepsTable.generate_with_balance 25 1).baby_step_size 10
        (BabyStepsTable.generate_with_balance 25 1).giant_step 1
        (((4 : ℕ) : ℤ) * gGen ℤ, 0) = some ((-1 : ℤ), 1) ∧
      (BabyStepsTable.generate_with_balance 25 1).table (compress (-1 : ℤ)) = some 1 ∧
      ¬ ((1 : ℕ) : ℤ) * gGen ℤ = (-1 : ℤ)) ∧
    (1 * (BabyStepsTable.generate_with_balance 25 1).baby_step_size = 4 + 1 ∧
      bsgsStep (BabyStepsTable.generate_with_balance 25 1).table
        (BabyStepsTable.generate_with_balance 25 1).baby_step_size 10
        (BabyStepsTable.generate_with_balance 25 1).giant_step (-1 : ℤ) 1 =
        StepOut.done (SolveResult.ok 4)) :=
  ⟨⟨by decide, by decide, by decide, by decide, by decide, by decide, by decide⟩,
    claim_C10_amended 25 1 10 4 1 (by decide) (by decide) (by decide) (by decide)
      (-1 : ℤ) 1 (by decide) 1 (by decide) (by decide)⟩

/-- C6 counterexample: at `max_value = 2^52 + 1` (exactly representable as an
`f64`), `balance = 1`, the source's `(max_value as f64).sqrt().ceil() as u64`
rounds the square root down to `2^26` (the real root `2^26 + ~2^-27` lies
within half an ulp of `2^26`), so `baby_step_size = 2^26`, while the exact
integer `ceil(sqrt(max_value))` is `2^26 + 1`. -/
theorem claim_C6_counterexample :
    (BabyStepsTable.generate_with_balance (2 ^ 52 + 1) 1).baby_step_size = 2 ^ 26 ∧
    ceilSqrtNat (2 ^ 52 + 1) * 1 = 2 ^ 26 + 1 ∧
    (BabyStepsTable.generate_with_balance (2 ^ 52 + 1) 1).baby_step_size ≠
      ceilSqrtNat (2 ^ 52 + 1) * 1 := by
  refine ⟨?_, ?_, ?_⟩ <;> decide

/-- C6 amended: `generate_with_balance` produces
`baby_step_size = sqrtCeilF64(max_value) * balance` (the IEEE-754
double-precision rounding of `ceil(sqrt(max_value))`, wrapped to `u64`; it
agrees with the exact integer ceiling square root on perfect squares up to
`2^53` but can differ elsewhere, e.g. at `max_value = 2^52 + 1`), a table
mapping the compressed coordinate of `generator * i` to `i` for every
`1 ≤ i ≤ baby_step_size / 2` (the identity mapped to the reserved
no-coordinate key with value 0, and no other keys present), and
`giant_step = generator * (-baby_step_size)`. -/
theorem claim_C6_amended (max_value balance : ℕ) :
    (BabyStepsTable.generate_with_balance max_value balance).baby_step_size =
      sqrtCeilF64 max_value * balance % U64 ∧
    (BabyStepsTable.generate_with_balance max_value balance).giant_step =
      -(((BabyStepsTable.generate_with_balance max_value balance).baby_step_size : ℕ) : ℤ) ∧
    (BabyStepsTable.generate_with_balance max_value balance).table none = some 0 ∧
    (∀ j : ℕ, 1 ≤ j →
      j ≤ (BabyStepsTable.generate_with_balance max_value balance).baby_step_size / 2 →
      (BabyStepsTable.generate_with_balance max_value balance).table (some j) = some j) ∧
    (∀ j : ℕ,
      (BabyStepsTable.generate_with_balance max_value balance).baby_step_size / 2 < j →
      (BabyStepsTable.generate_with_balance max_value balance).table (some j) = none) ∧
    (∀ t : ℕ, 1 ≤ t → t * t ≤ 2 ^ 53 → sqrtCeilF64 (t * t) = ceilSqrtNat (t * t)) := by
  refine ⟨generate_bss max_value balance, generate_giant max_value balance,
    generate_table_none max_value balance, ?_, ?_, ?_⟩
  · intro j h1 h2
    rw [generate_table_some max_value balance j, if_pos ⟨h1, h2⟩]
  · intro j hj
    rw [generate_table_some max_value balance j, if_neg (by omega)]
  · intro t h1 h2
    rw [sqrtCeilF64_sq h1 h2]
    have hlt : t * t < 4 ^ 128 := lt_of_le_of_lt h2 (by norm_num)
    have hsq : nsqrt (t * t) = t :=
      nsqrt_unique _ _ hlt (le_refl _)
        (Nat.mul_lt_mul_of_lt_of_le (Nat.lt_succ_self _) (Nat.le_succ _) (by omega))
    unfold ceilSqrtNat
    rw [hsq, if_pos rfl]

/-- Witness for the amended C6 evaluated at `max_value = 25`, `balance = 1`:
baby-step size 5, the key 2 present, the key 3 absent, and the pipeline value
at the perfect square `25 = 5 * 5` agreeing with the exact ceiling root. -/
theorem claim_C6_amended_witness :
    (BabyStepsTable.generate_with_balance 25 1).baby_step_size =
      sqrtCeilF64 25 * 1 % U64 ∧
    (BabyStepsTable.generate_with_balance 25 1).table (some 2) = some 2 ∧
    (BabyStepsTable.generate_with_balance 25 1).table (some 3) = none ∧
    sqrtCeilF64 (5 * 5) = ceilSqrtNat (5 * 5) :=
  ⟨(claim_C6_amended 25 1).1,
    (claim_C6_amended 25 1).2.2.2.1 2 (by decide) (by decide),
    (claim_C6_amended 25 1).2.2.2.2.1 3 (by decide),
    (claim_C6_amended 25 1).2.2.2.2.2 5 (by decide) (by decide)⟩

/-- C1: Completeness of the decryption proof.  For every scalar field (any
commutative ring in the exponent model), every challenge function `H` (the
Fiat-Shamir collaborator, deterministic in `(pk, c, d, a1, a2)`), every valid
key pair `pk = generator * sk`, every ciphertext `c = (e1, e2)` that truly
encrypts the group element `m` under that key (`e2 - e1 * sk = m`), and every
sampled randomness `w`, verifying the proof produced by
`ProofDecrypt.generate` against `(c, m, pk)` returns `true`. -/
theorem claim_C1 {R : Type} [CommRing R] [DecidableEq R]
    (H : R → Ciphertext R → R → R → R → R)
    (c : Ciphertext R) (sk w m pk : R)
    (hpk : pk = gGen R * sk) (hm : c.e2 - c.e1 * sk = m) :
    ProofDecrypt.verify H (ProofDecrypt.generate H c pk sk w) c m pk = true := by
  subst hpk
  subst hm
  unfold ProofDecrypt.verify ProofDecrypt.generate
  simp only [gGen, one_mul]
  rw [sub_sub_cancel]
  rw [Bool.and_eq_true, decide_eq_true_eq, decide_eq_true_eq]
  constructor <;> ring

/-- Witness for C1 over the exponent model with scalar ring `ℤ`:
`sk = 3`, `w = 5`, ciphertext `(7, 11)`, `pk = generator * 3`,
`m = 11 - 7 * 3 = -10`. -/
theorem claim_C1_witness :
    ((3 : ℤ) = gGen ℤ * 3 ∧
      (Ciphertext.mk (7 : ℤ) 11).e2 - (Ciphertext.mk (7 : ℤ) 11).e1 * 3 = -10) ∧
    ProofDecrypt.verify Hdemo
      (ProofDecrypt.generate Hdemo (Ciphertext.mk (7 : ℤ) 11) 3 3 5)
      (Ciphertext.mk (7 : ℤ) 11) (-10) 3 = true :=
  ⟨⟨by decide, by decide⟩,
    claim_C1 Hdemo (Ciphertext.mk (7 : ℤ) 11) 3 5 (-10) 3 (by decide) (by decide)⟩

/-! ## Serialization round-trip lemmas -/

theorem natToBytesLE_length : ∀ (w n : ℕ), (natToBytesLE w n).length = w := by
  intro w
  induction w with
  | zero => intro n; rfl
  | succ w ih =>
    intro n
    show (n % 256 :: natToBytesLE w (n / 256)).length = w + 1
    rw [List.length_cons, ih]

theorem bytesToNatLE_natToBytesLE : ∀ (w n : ℕ),
    bytesToNatLE (natToBytesLE w n) = n % 256 ^ w := by
  intro w
  induction w with
  | zero => intro n; rw [pow_zero, Nat.mod_one]; rfl
  | succ w ih =>
    intro n
    show n % 256 + 256 * bytesToNatLE (natToBytesLE w (n / 256)) = n % 256 ^ (w + 1)
    rw [ih]
    rw [show (256 : ℕ) ^ (w + 1) = 256 * 256 ^ w by ring]
    rw [Nat.mod_mul]

theorem qOrder_lt : qOrder < 256 ^ 32 := by norm_num [qOrder]

theorem geFromBytes_geToBytes (x : Zq) : geFromBytes (geToBytes x) = some x := by
  unfold geFromBytes geToBytes
  have hval : x.val < qOrder := ZMod.val_lt x
  have hround : bytesToNatLE (natToBytesLE geBYTES_LEN x.val) = x.val := by
    rw [bytesToNatLE_natToBytesLE]
    exact Nat.mod_eq_of_lt (lt_trans hval qOrder_lt)
  rw [if_pos ⟨natToBytesLE_length _ _, by rw [hround]; exact hval⟩, hround]
  rw [ZMod.natCast_rightInverse x]

theorem scFromBytes_scToBytes (x : Zq) : scFromBytes (scToBytes x) = some x := by
  unfold scFromBytes scToBytes
  have hval : x.val < qOrder := ZMod.val_lt x
  have hround : bytesToNatLE (natToBytesLE scBYTES_LEN x.val) = x.val := by
    rw [bytesToNatLE_natToBytesLE]
    exact Nat.mod_eq_of_lt (lt_trans hval qOrder_lt)
  rw [if_pos ⟨natToBytesLE_length _ _, by rw [hround]; exact hval⟩, hround]
  rw [ZMod.natCast_rightInverse x]

/-- C7: Serialization round-trip.  For every proof `p = (a1, a2, z)`,
`ProofDecrypt.from_slice (ProofDecrypt.to_bytes p)` succeeds and returns a
proof equal to `p`. -/
theorem claim_C7 (pf : ProofDecrypt Zq) :
    ProofDecrypt.from_slice (ProofDecrypt.to_bytes pf) = some pf := by
  unfold ProofDecrypt.from_slice ProofDecrypt.to_bytes
  have hlen1 : (geToBytes pf.a1).length = geBYTES_LEN := natToBytesLE_length _ _
  have hlen2 : (geToBytes pf.a2).length = geBYTES_LEN := natToBytesLE_length _ _
  have hlen3 : (scToBytes pf.z).length = scBYTES_LEN := natToBytesLE_length _ _
  have hlen : (geToBytes pf.a1 ++ geToBytes pf.a2 ++ scToBytes pf.z).length =
      ProofDecrypt.PROOF_SIZE := by
    rw [List.length_append, List.length_append, hlen1, hlen2, hlen3]
    rfl
  rw [if_neg (by omega)]
  have htake1 : (geToBytes pf.a1 ++ geToBytes pf.a2 ++ scToBytes pf.z).take geBYTES_LEN =
      geToBytes pf.a1 := by
    rw [List.append_assoc, ← hlen1, List.take_left]
  have hdrop1 : (geToBytes pf.a1 ++ geToBytes pf.a2 ++ scToBytes pf.z).drop geBYTES_LEN =
      geToBytes pf.a2 ++ scToBytes pf.z := by
    rw [List.append_assoc, ← hlen1, List.drop_left]
  have htake2 : ((geToBytes pf.a1 ++ geToBytes pf.a2 ++ scToBytes pf.z).drop
      geBYTES_LEN).take geBYTES_LEN = geToBytes pf.a2 := by
    rw [hdrop1, ← hlen2, List.take_left]
  have hdrop2 : (geToBytes pf.a1 ++ geToBytes pf.a2 ++ scToBytes pf.z).drop
      (2 * geBYTES_LEN) = scToBytes pf.z := by
    have h2 : 2 * geBYTES_LEN = (geToBytes pf.a1 ++ geToBytes pf.a2).length := by
      rw [List.length_append, hlen1, hlen2]
      rfl
    rw [h2, List.drop_left]
  rw [htake1, htake2, hdrop2]
  rw [geFromBytes_geToBytes, geFromBytes_geToBytes, scFromBytes_scToBytes]

/-- C8: Decode rejection.  A buffer whose length differs from
`2 * (group-element width) + (scalar width)` is rejected with `none` (the
embedding is a total function — no panic is possible); a buffer of the
correct length yields `some` exactly when all three components decode, and
the decoded proof is assembled from exactly those components (no partial
value). -/
theorem claim_C8 (l : List ℕ) :
    (l.length ≠ ProofDecrypt.PROOF_SIZE → ProofDecrypt.from_slice l = none) ∧
    (∀ pf : ProofDecrypt Zq,
      ProofDecrypt.from_slice l = some pf ↔
        l.length = ProofDecrypt.PROOF_SIZE ∧
        geFromBytes (l.take geBYTES_LEN) = some pf.a1 ∧
        geFromBytes ((l.drop geBYTES_LEN).take geBYTES_LEN) = some pf.a2 ∧
        scFromBytes (l.drop (2 * geBYTES_LEN)) = some pf.z) := by
  constructor
  · intro h
    unfold ProofDecrypt.from_slice
    rw [if_pos h]
  · intro pf
    unfold ProofDecrypt.from_slice
    by_cases hl : l.length = ProofDecrypt.PROOF_SIZE
    · rw [if_neg (by omega)]
      cases h1 : geFromBytes (l.take geBYTES_LEN) with
      | none =>
        cases h2 : geFromBytes ((l.drop geBYTES_LEN).take geBYTES_LEN) <;>
          cases h3 : scFromBytes (l.drop (2 * geBYTES_LEN)) <;>
            simp [hl, h1, h2, h3]
      | some a1 =>
        cases h2 : geFromBytes ((l.drop geBYTES_LEN).take geBYTES_LEN) with
        | none =>
          cases h3 : scFromBytes (l.drop (2 * geBYTES_LEN)) <;> simp [hl, h1, h2, h3]
        | some a2 =>
          cases h3 : scFromBytes (l.drop (2 * geBYTES_LEN)) with
          | none => simp [hl, h1, h2, h3]
          | some z =>
            simp only [hl, h1, h2, h3, Option.some.injEq, true_and]
            constructor
            · rintro rfl
              exact ⟨rfl, rfl, rfl⟩
            · rintro ⟨ha1, ha2, hz⟩
              obtain rfl : a1 = pf.a1 := by simpa using ha1
              obtain rfl : a2 = pf.a2 := by simpa using ha2
              obtain rfl : z = pf.z := by simpa using hz
              rfl
    · rw [if_pos hl]
      simp [hl]

/-- Witness for C8: the 95-byte all-zero buffer (one byte short) is
rejected. -/
theorem claim_C8_witness :
    ProofDecrypt.from_slice (List.replicate 95 0) = none :=
  (claim_C8 (List.replicate 95 0)).1 (by decide)
